import Mathlib

/-!
A first-fit free-list allocator over a fixed arena (`my_heap.c`).

Shallow embedding of `heap_init`, `heap_alloc`, `heap_free`, `print_heap_state` and the driver
`main`, and the properties of the allocator proved on it.

Modelling conventions.

* A pointer into the arena is its byte offset from `my_heap->start`; the null
  pointer is `none`.  Chunk headers are read and written through their offset.
* The arena is a store of chunk headers indexed by byte offset
  (`Nat → chunk`), one independent object per offset.  This is exact as long as
  the headers that are read are headers of chunks of the current layout: these
  never overlap, each taking `sizeof(chunk)` bytes.  It holds for `heap_alloc`, and
  for `heap_free` on `NULL` or on a currently allocated pointer, and these are the
  calls the reachable states are built from.  It does not hold for `heap_free` on a
  pointer that was released before and whose region has been reused: in C the
  bytes of such a header (`size` and `free` at bytes 0-4) are shared with the
  `next_free` field of a header 8 bytes below, so the test `block_to_free->free`
  can read a value no call stored there.  Such calls are outside this model.
  Payload bytes are not modelled: the caller is assumed not to write through the
  pointers it is given, as in the driver `main`.
* `sizeof(chunk) = 16` and `sizeof(void*) = 8` (LP64).  `uint32_t` fields are
  natural numbers; every arithmetic step that can wrap is reduced modulo `2^32`.
* A `while` loop is a recursive function on a fuel argument counting the
  evaluations of the loop condition; `none` means the fuel ran out.  In a
  reachable state `HEAP_SIZE` units of fuel are always enough.
-/

namespace MyHeap

/-- The macro `HEAP_SIZE`. -/
def HEAP_SIZE : Nat := 4096

/-- The value of `sizeof(chunk)`: a 4-byte size, a 1-byte flag, padding, an 8-byte pointer. -/
def SIZEOF_CHUNK : Nat := 16

/-- The value of `sizeof(void*)`. -/
def SIZEOF_PTR : Nat := 8

/-- The modulus of `uint32_t` arithmetic. -/
def UINT32_MOD : Nat := 4294967296

/-- The header `struct chunk`. -/
structure chunk where
  size : Nat
  free : Bool
  next_free : Option Nat
deriving DecidableEq

/-- The record `struct heap_info`; `start` is offset `0` of `mem`. -/
structure heap where
  mem : Nat → chunk
  avail : Nat
  free_list_head : Option Nat

/-- The store `c->size = v` for the header at offset `a`. -/
def set_size (m : Nat → chunk) (a v : Nat) : Nat → chunk :=
  fun x => if x = a then { m x with size := v } else m x

/-- The store `c->free = v` for the header at offset `a`. -/
def set_free (m : Nat → chunk) (a : Nat) (v : Bool) : Nat → chunk :=
  fun x => if x = a then { m x with free := v } else m x

/-- The store `c->next_free = v` for the header at offset `a`. -/
def set_next (m : Nat → chunk) (a : Nat) (v : Option Nat) : Nat → chunk :=
  fun x => if x = a then { m x with next_free := v } else m x

/-- The function `heap_init`.  `heap_ok` says whether the first `malloc` succeeded, `arena` is
the result of the second one: `none` on failure, else the uninitialised contents. -/
def heap_init (heap_ok : Bool) (arena : Option (Nat → chunk)) : Option heap :=
  if heap_ok then
    match arena with
    | none => none
    | some raw =>
      let m1 := set_size raw 0 (HEAP_SIZE - SIZEOF_CHUNK)
      let m2 := set_free m1 0 true
      let m3 := set_next m2 0 none
      some { mem := m3, avail := HEAP_SIZE, free_list_head := some 0 }
  else none

/-- Lines 47-49 of `heap_alloc`: round the request up to a multiple of `sizeof(void*)`,
in `uint32_t`. -/
def align_up (size : Nat) : Nat :=
  if size % SIZEOF_PTR ≠ 0 then (size + (SIZEOF_PTR - size % SIZEOF_PTR)) % UINT32_MOD
  else size

/-- The idiom `if (prev) prev->next_free = target; else my_heap->free_list_head = target;`. -/
def set_link (h : heap) (prev : Option Nat) (target : Option Nat) : heap :=
  match prev with
  | some p => { h with mem := set_next h.mem p target }
  | none => { h with free_list_head := target }

/-- Lines 56-83 of `heap_alloc`: the body of `if (current->size >= size)`. -/
def alloc_take (h : heap) (size : Nat) (prev : Option Nat) (cur : Nat) : Option Nat × heap :=
  let remaining_size := (h.mem cur).size - size
  let h1 : heap :=
    if remaining_size > SIZEOF_CHUNK then
      let new_free_chunk := cur + SIZEOF_CHUNK + size
      let m1 := set_size h.mem new_free_chunk (remaining_size - SIZEOF_CHUNK)
      let m2 := set_free m1 new_free_chunk true
      let m3 := set_next m2 new_free_chunk (m2 cur).next_free
      let m4 := set_size m3 cur size
      set_link { h with mem := m4 } prev (some new_free_chunk)
    else
      set_link h prev (h.mem cur).next_free
  let m5 := set_free h1.mem cur false
  let avail := (h1.avail + (UINT32_MOD - ((m5 cur).size + SIZEOF_CHUNK) % UINT32_MOD)) % UINT32_MOD
  (some (cur + SIZEOF_CHUNK), { h1 with mem := m5, avail := avail })

/-- The `while (current != NULL)` loop of `heap_alloc`. -/
def alloc_loop (h : heap) (size : Nat) :
    Nat → Option Nat → Option Nat → Option (Option Nat × heap)
  | 0, _, _ => none
  | fuel + 1, prev, current =>
    match current with
    | none => some (none, h)
    | some cur =>
      if (h.mem cur).size ≥ size then some (alloc_take h size prev cur)
      else alloc_loop h size fuel (some cur) (h.mem cur).next_free

/-- The function `heap_alloc`: the returned pointer (`none` is `NULL`) and the new state. -/
def heap_alloc (fuel : Nat) (h : heap) (size : Nat) : Option (Option Nat × heap) :=
  if size = 0 then some (none, h)
  else alloc_loop h (align_up size) fuel none h.free_list_head

/-- What a call of `heap_free` did: returned at once on `NULL`, printed the
"already free" error, or released the block. -/
inductive free_status where
  | null_ptr
  | already_free
  | freed
deriving DecidableEq

/-- The loop `while (current != NULL && current < block_to_free)` of `heap_free`:
the final `(prev, current)`. -/
def free_walk (m : Nat → chunk) (block : Nat) :
    Nat → Option Nat → Option Nat → Option (Option Nat × Option Nat)
  | 0, _, _ => none
  | fuel + 1, prev, current =>
    match current with
    | none => some (prev, none)
    | some cur =>
      if cur < block then free_walk m block fuel (some cur) (m cur).next_free
      else some (prev, some cur)

/-- Lines 120-125 of `heap_free`: link the block between `prev` and `current`. -/
def free_link (h : heap) (block : Nat) (prev current : Option Nat) : heap :=
  let h1 := set_link h prev (some block)
  { h1 with mem := set_next h1.mem block current }

/-- Lines 115-126 of `heap_free`: merge into the left neighbour or link the block;
the second component is the new value of `block_to_free`. -/
def free_left (h : heap) (block : Nat) (prev current : Option Nat) : heap × Nat :=
  match prev with
  | some pv =>
    if pv + SIZEOF_CHUNK + (h.mem pv).size = block then
      let merged := ((h.mem pv).size + (SIZEOF_CHUNK + (h.mem block).size)) % UINT32_MOD
      ({ h with mem := set_size h.mem pv merged }, pv)
    else (free_link h block prev current, block)
  | none => (free_link h block prev current, block)

/-- Lines 128-131 of `heap_free`: merge the right neighbour into `block_to_free`. -/
def free_right (h : heap) (block : Nat) (current : Option Nat) : heap :=
  match current with
  | some cur =>
    if block + SIZEOF_CHUNK + (h.mem block).size = cur then
      let merged := ((h.mem block).size + (SIZEOF_CHUNK + (h.mem cur).size)) % UINT32_MOD
      let m1 := set_size h.mem block merged
      { h with mem := set_next m1 block (m1 cur).next_free }
    else h
  | none => h

/-- Lines 104-105 of `heap_free`: set the flag of the block and credit `avail`. -/
def free_mark (h : heap) (block : Nat) : heap :=
  let m1 := set_free h.mem block true
  let avail := (h.avail + ((m1 block).size + SIZEOF_CHUNK)) % UINT32_MOD
  { h with mem := m1, avail := avail }

/-- The function `heap_free`.  The header at `ptr - sizeof(chunk)` is read as it was last
stored, which is what the C code reads when `ptr` is a currently allocated pointer (or one
released by the call just before); see the conventions above for other pointers. -/
def heap_free (fuel : Nat) (h : heap) (ptr : Option Nat) : Option (free_status × heap) :=
  match ptr with
  | none => some (free_status.null_ptr, h)
  | some p =>
    let block_to_free := p - SIZEOF_CHUNK
    if (h.mem block_to_free).free then some (free_status.already_free, h)
    else
      let h1 := free_mark h block_to_free
      match free_walk h1.mem block_to_free fuel none h1.free_list_head with
      | none => none
      | some (prev, current) =>
        let r := free_left h1 block_to_free prev current
        some (free_status.freed, free_right r.1 r.2 current)

/-- One line printed by `print_heap_state`: address, size and state of a chunk. -/
structure row where
  addr : Nat
  size : Nat
  free : Bool
deriving DecidableEq

/-- The loop of `print_heap_state`: the chunks met from `current` up to the arena end. -/
def print_loop (m : Nat → chunk) : Nat → Nat → Option (List row)
  | 0, _ => none
  | fuel + 1, current =>
    if current < HEAP_SIZE then
      (print_loop m fuel (current + SIZEOF_CHUNK + (m current).size)).map
        (fun rest => { addr := current, size := (m current).size, free := (m current).free } :: rest)
    else some []

/-- The function `print_heap_state`: the chunk lines it prints, in order. -/
def print_heap_state (fuel : Nat) (h : heap) : Option (List row) :=
  print_loop h.mem fuel 0

/-- The free list read from a pointer along `next_free`, as a list of offsets. -/
def free_list_from (m : Nat → chunk) : Nat → Option Nat → Option (List Nat)
  | 0, _ => none
  | fuel + 1, current =>
    match current with
    | none => some []
    | some cur => (free_list_from m fuel (m cur).next_free).map (fun rest => cur :: rest)

/-- The free list of a heap, read from `free_list_head`. -/
def free_list (fuel : Nat) (h : heap) : Option (List Nat) :=
  free_list_from h.mem fuel h.free_list_head

/-! ## The layout described by a state

A state is described by the list of its chunks in address order.  The predicates below say
that such a list tiles the arena, agrees with the headers in memory, and that the free list
threads exactly its free chunks. -/

/-- The rows of `P` lie back to back from offset `a` to offset `e`. -/
def Tiled : Nat → List row → Nat → Prop
  | a, [], e => a = e
  | a, c :: P, e => c.addr = a ∧ Tiled (a + SIZEOF_CHUNK + c.size) P e

/-- The headers in memory carry the size and flag of every row of `P`. -/
def Agree (m : Nat → chunk) (P : List row) : Prop :=
  ∀ c ∈ P, (m c.addr).size = c.size ∧ (m c.addr).free = c.free

/-- The offsets of the free rows of `P`, in order. -/
def free_addrs (P : List row) : List Nat :=
  (P.filter (fun c => c.free)).map (fun c => c.addr)

/-- The offsets of the allocated rows of `P` shifted to their payload, in order. -/
def alloc_ptrs (P : List row) : List Nat :=
  (P.filter (fun c => !c.free)).map (fun c => c.addr + SIZEOF_CHUNK)

/-- The sum of `size + sizeof(chunk)` over the free rows of `P`. -/
def free_bytes (P : List row) : Nat :=
  ((P.filter (fun c => c.free)).map (fun c => c.size + SIZEOF_CHUNK)).sum

/-- The sum of `size + sizeof(chunk)` over all rows of `P`. -/
def total_bytes (P : List row) : Nat :=
  (P.map (fun c => c.size + SIZEOF_CHUNK)).sum

/-- Following `next_free` from pointer `p` meets exactly the nodes `F` and ends on pointer `q`. -/
def Seg (m : Nat → chunk) : Option Nat → List Nat → Option Nat → Prop
  | p, [], q => p = q
  | p, x :: F, q => p = some x ∧ Seg m (m x).next_free F q

/-- No two neighbouring rows are both free. -/
def NoAdjFree (P : List row) : Prop :=
  P.Chain' (fun c d => ¬ (c.free = true ∧ d.free = true))

/-- The state `h` has layout `P`, neighbouring free rows allowed. -/
structure Rep0 (h : heap) (P : List row) : Prop where
  tiled : Tiled 0 P HEAP_SIZE
  agree : Agree h.mem P
  linked : Seg h.mem h.free_list_head (free_addrs P) none
  avail_eq : h.avail = free_bytes P

/-- The state `h` has layout `P` and no two neighbouring rows of `P` are free. -/
structure Rep (h : heap) (P : List row) : Prop where
  rep0 : Rep0 h P
  noadj : NoAdjFree P

/-! ## Layout operations, runs and reachable states

The counterparts on layouts of what the calls do, sequences of calls, the reachable states,
and the concrete states used as instances. -/

/-- The value of `prev` after a loop has walked over the nodes `G`, starting with `prev = p`. -/
def last_or : Option Nat → List Nat → Option Nat
  | p, [] => p
  | _, x :: G => last_or (some x) G

/-- The rows that replace a free row `c` when `s` bytes are allocated from it. -/
def alloc_rows (c : row) (s : Nat) : List row :=
  if c.size - s > SIZEOF_CHUNK then
    [{ addr := c.addr, size := s, free := false },
     { addr := c.addr + SIZEOF_CHUNK + s, size := c.size - s - SIZEOF_CHUNK, free := true }]
  else [{ addr := c.addr, size := c.size, free := false }]

/-- The layout after lines 104-105 of `heap_free`: the row `b` is flagged and counted in
`avail`, but not yet a node of the free list. -/
structure Mid (h : heap) (P1 : List row) (b : row) (P2 : List row) : Prop where
  tiled : Tiled 0 (P1 ++ b :: P2) HEAP_SIZE
  agree : Agree h.mem (P1 ++ b :: P2)
  linked : Seg h.mem h.free_list_head (free_addrs P1 ++ free_addrs P2) none
  avail_eq : h.avail = free_bytes (P1 ++ b :: P2)
  flag : b.free = true

/-- The rows left of the released row `b` after the left phase, and the row that now holds `b`:
the last row of `P1` grown over `b` when it is free, else `b` itself marked free. -/
def merge_left (P1 : List row) (b : row) : List row × row :=
  match P1.getLast? with
  | some l =>
    if l.free then
      (P1.dropLast, { addr := l.addr, size := l.size + SIZEOF_CHUNK + b.size, free := true })
    else (P1, { addr := b.addr, size := b.size, free := true })
  | none => (P1, { addr := b.addr, size := b.size, free := true })

/-- The rows from the freed row `t` on after the right phase: `t` grown over the first row of
`P2` when that row is free. -/
def merge_right (t : row) (P2 : List row) : List row :=
  match P2 with
  | r :: P2' =>
    if r.free then { addr := t.addr, size := t.size + SIZEOF_CHUNK + r.size, free := true } :: P2'
    else t :: P2
  | [] => [t]

/-- The layout after releasing the allocated row `b` of the layout `P1 ++ b :: P2`. -/
def free_rows (P1 : List row) (b : row) (P2 : List row) : List row :=
  (merge_left P1 b).1 ++ merge_right (merge_left P1 b).2 P2

/-- The states reached from `heap_init` by valid calls: `heap_alloc` with any `uint32_t` size,
and `heap_free` on `NULL` or on a currently allocated pointer, that is the payload of a chunk
that `print_heap_state` shows as allocated.  A call of `heap_free` on a pointer that was
released before is not a step.  The index lists the pointers `heap_alloc` returned so far,
the latest first. -/
inductive Reach : List Nat → heap → Prop
  | init {raw : Nat → chunk} {h : heap} :
      heap_init true (some raw) = some h → Reach [] h
  | alloc {ps : List Nat} {h h' : heap} {fuel n : Nat} {res : Option Nat} :
      Reach ps h → n < UINT32_MOD → heap_alloc fuel h n = some (res, h') →
      Reach (res.toList ++ ps) h'
  | free {ps : List Nat} {h h' : heap} {fuel : Nat} {ptr : Option Nat} {st : free_status} :
      Reach ps h →
      (∀ p ∈ ptr, ∃ P, print_heap_state HEAP_SIZE h = some P ∧ p ∈ alloc_ptrs P) →
      heap_free fuel h ptr = some (st, h') →
      Reach ps h'

/-- Call `heap_alloc` for each size in turn; the pointers it returned (`NULL` left out), in
order, and the final state. -/
def alloc_all (fuel : Nat) : heap → List Nat → Option (List Nat × heap)
  | h, [] => some ([], h)
  | h, n :: ns =>
    match heap_alloc fuel h n with
    | none => none
    | some (res, h1) =>
      match alloc_all fuel h1 ns with
      | none => none
      | some (ps, h2) => some (res.toList ++ ps, h2)

/-- Call `heap_free` on each pointer in turn; the final state. -/
def free_all (fuel : Nat) : heap → List Nat → Option heap
  | h, [] => some h
  | h, p :: ps =>
    match heap_free fuel h (some p) with
    | none => none
    | some (_, h1) => free_all fuel h1 ps

/-- The arena contents used for concrete runs: every header field zero. -/
def zero_arena : Nat → chunk := fun _ => { size := 0, free := false, next_free := none }

/-- The state `heap_init` returns on `zero_arena`. -/
def fresh_heap : heap :=
  { mem := set_next (set_free (set_size zero_arena 0 (HEAP_SIZE - SIZEOF_CHUNK)) 0 true) 0 none,
    avail := HEAP_SIZE,
    free_list_head := some 0 }

/-- The fresh heap after `heap_alloc(100)`. -/
def one_alloc : heap := (alloc_take fresh_heap 104 none 0).2

/-- The driver's state after `A(100)`, `B(500)`, `C(200)` and the release of `B`. -/
def hole_heap : heap :=
  let h2 := (alloc_take one_alloc 504 none 120).2
  let h3 := (alloc_take h2 200 none 640).2
  free_right (free_left (free_mark h3 120) 120 none (some 856)).1 120 (some 856)

/-- The driver `main`, with the outcome of the two allocations of `heap_init` as arguments:
the pointers `block_a`, `block_b`, `block_c`, `block_d` it obtains and the six states it hands
to `print_heap_state`, in order. -/
def main (fuel : Nat) (heap_ok : Bool) (arena : Option (Nat → chunk)) :
    Option (List (Option Nat) × List heap) := do
  let h0 ← heap_init heap_ok arena
  let (block_a, h1) ← heap_alloc fuel h0 100
  let (block_b, h2) ← heap_alloc fuel h1 500
  let (block_c, h3) ← heap_alloc fuel h2 200
  let (_, h4) ← heap_free fuel h3 block_b
  let (_, h5) ← heap_free fuel h4 block_a
  let (block_d, h6) ← heap_alloc fuel h5 600
  let (_, h7) ← heap_free fuel h6 block_c
  let (_, h8) ← heap_free fuel h7 block_d
  pure ([block_a, block_b, block_c, block_d], [h0, h3, h4, h5, h6, h8])

/-- The reachable states of `Reach`, with one more index: the live allocations, that is the
pairs `(p, n)` of a currently allocated pointer `p` and the size `n` passed to the call of
`heap_alloc` that returned it.  A call of `heap_free(p)`, which as in `Reach` is made on a
currently allocated pointer, ends the allocation of `p`. -/
inductive ReachLive : List Nat → List (Nat × Nat) → heap → Prop
  | init {raw : Nat → chunk} {h : heap} :
      heap_init true (some raw) = some h → ReachLive [] [] h
  | alloc_ptr {ps : List Nat} {L : List (Nat × Nat)} {h h' : heap} {fuel n p : Nat} :
      ReachLive ps L h → n < UINT32_MOD → heap_alloc fuel h n = some (some p, h') →
      ReachLive (p :: ps) ((p, n) :: L) h'
  | alloc_null {ps : List Nat} {L : List (Nat × Nat)} {h h' : heap} {fuel n : Nat} :
      ReachLive ps L h → n < UINT32_MOD → heap_alloc fuel h n = some (none, h') →
      ReachLive ps L h'
  | free_null {ps : List Nat} {L : List (Nat × Nat)} {h h' : heap} {fuel : Nat}
      {st : free_status} :
      ReachLive ps L h → heap_free fuel h none = some (st, h') → ReachLive ps L h'
  | free_ptr {ps : List Nat} {L : List (Nat × Nat)} {h h' : heap} {fuel p : Nat}
      {st : free_status} :
      ReachLive ps L h →
      (∃ P, print_heap_state HEAP_SIZE h = some P ∧ p ∈ alloc_ptrs P) →
      heap_free fuel h (some p) = some (st, h') →
      ReachLive ps (L.filter (fun e => decide (e.1 ≠ p))) h'

/-! ## Stores -/

@[simp] theorem set_size_size (m : Nat → chunk) (a v x : Nat) :
    (set_size m a v x).size = if x = a then v else (m x).size := by
  unfold set_size; split <;> rfl

@[simp] theorem set_size_free (m : Nat → chunk) (a v x : Nat) :
    (set_size m a v x).free = (m x).free := by
  unfold set_size; split <;> rfl

@[simp] theorem set_size_next (m : Nat → chunk) (a v x : Nat) :
    (set_size m a v x).next_free = (m x).next_free := by
  unfold set_size; split <;> rfl

@[simp] theorem set_free_size (m : Nat → chunk) (a : Nat) (v : Bool) (x : Nat) :
    (set_free m a v x).size = (m x).size := by
  unfold set_free; split <;> rfl

@[simp] theorem set_free_free (m : Nat → chunk) (a : Nat) (v : Bool) (x : Nat) :
    (set_free m a v x).free = if x = a then v else (m x).free := by
  unfold set_free; split <;> rfl

@[simp] theorem set_free_next (m : Nat → chunk) (a : Nat) (v : Bool) (x : Nat) :
    (set_free m a v x).next_free = (m x).next_free := by
  unfold set_free; split <;> rfl

@[simp] theorem set_next_size (m : Nat → chunk) (a : Nat) (v : Option Nat) (x : Nat) :
    (set_next m a v x).size = (m x).size := by
  unfold set_next; split <;> rfl

@[simp] theorem set_next_free (m : Nat → chunk) (a : Nat) (v : Option Nat) (x : Nat) :
    (set_next m a v x).free = (m x).free := by
  unfold set_next; split <;> rfl

@[simp] theorem set_next_next (m : Nat → chunk) (a : Nat) (v : Option Nat) (x : Nat) :
    (set_next m a v x).next_free = if x = a then v else (m x).next_free := by
  unfold set_next; split <;> rfl

/-! ## Lists of rows -/

theorem free_addrs_append (P Q : List row) :
    free_addrs (P ++ Q) = free_addrs P ++ free_addrs Q := by
  simp [free_addrs]

theorem free_addrs_cons (c : row) (P : List row) :
    free_addrs (c :: P) = if c.free = true then c.addr :: free_addrs P else free_addrs P := by
  by_cases hc : c.free = true <;> simp [free_addrs, hc]

theorem alloc_ptrs_append (P Q : List row) :
    alloc_ptrs (P ++ Q) = alloc_ptrs P ++ alloc_ptrs Q := by
  simp [alloc_ptrs]

theorem alloc_ptrs_cons (c : row) (P : List row) :
    alloc_ptrs (c :: P) =
      if c.free = true then alloc_ptrs P else (c.addr + SIZEOF_CHUNK) :: alloc_ptrs P := by
  by_cases hc : c.free = true <;> simp [alloc_ptrs, hc]

theorem free_bytes_append (P Q : List row) :
    free_bytes (P ++ Q) = free_bytes P + free_bytes Q := by
  simp [free_bytes]

theorem free_bytes_cons (c : row) (P : List row) :
    free_bytes (c :: P) =
      if c.free = true then c.size + SIZEOF_CHUNK + free_bytes P else free_bytes P := by
  by_cases hc : c.free = true <;> simp [free_bytes, hc]

theorem total_bytes_append (P Q : List row) :
    total_bytes (P ++ Q) = total_bytes P + total_bytes Q := by
  simp [total_bytes]

theorem total_bytes_cons (c : row) (P : List row) :
    total_bytes (c :: P) = c.size + SIZEOF_CHUNK + total_bytes P := by
  simp [total_bytes]

theorem free_bytes_le_total (P : List row) : free_bytes P ≤ total_bytes P := by
  induction P with
  | nil => simp [free_bytes, total_bytes]
  | cons c P ih =>
    rw [free_bytes_cons, total_bytes_cons]
    split <;> omega

theorem Tiled_nil {a e : Nat} : Tiled a [] e ↔ a = e := Iff.rfl

theorem Tiled_cons {a e : Nat} {c : row} {P : List row} :
    Tiled a (c :: P) e ↔ c.addr = a ∧ Tiled (a + SIZEOF_CHUNK + c.size) P e := Iff.rfl

theorem Tiled_append {a e : Nat} {P Q : List row} :
    Tiled a (P ++ Q) e ↔ ∃ b, Tiled a P b ∧ Tiled b Q e := by
  induction P generalizing a with
  | nil => simp [Tiled_nil]
  | cons c P ih =>
    rw [List.cons_append, Tiled_cons, ih]
    constructor
    · rintro ⟨h1, b, h2, h3⟩
      exact ⟨b, ⟨h1, h2⟩, h3⟩
    · rintro ⟨b, ⟨h1, h2⟩, h3⟩
      exact ⟨h1, b, h2, h3⟩

theorem Tiled_end {a e : Nat} {P : List row} (h : Tiled a P e) : e = a + total_bytes P := by
  induction P generalizing a with
  | nil => simpa [Tiled, total_bytes] using h.symm
  | cons c P ih =>
    obtain ⟨_, h2⟩ := h
    rw [ih h2, total_bytes_cons]
    omega

theorem Tiled_unique_end {a e e' : Nat} {P : List row} (h : Tiled a P e) (h' : Tiled a P e') :
    e = e' := by
  rw [Tiled_end h, Tiled_end h']

theorem Tiled_mem {a e : Nat} {P : List row} (h : Tiled a P e) {c : row} (hc : c ∈ P) :
    a ≤ c.addr ∧ c.addr + SIZEOF_CHUNK + c.size ≤ e := by
  induction P generalizing a with
  | nil => cases hc
  | cons d P ih =>
    obtain ⟨h1, h2⟩ := h
    have he := Tiled_end h2
    rcases List.mem_cons.1 hc with rfl | hc
    · omega
    · have := ih h2 hc
      omega

theorem Tiled_length {a e : Nat} {P : List row} (h : Tiled a P e) :
    a + SIZEOF_CHUNK * P.length ≤ e := by
  induction P generalizing a with
  | nil => simp [Tiled] at h; simp [h]
  | cons d P ih =>
    obtain ⟨_, h2⟩ := h
    have := ih h2
    simp only [List.length_cons]
    rw [Nat.mul_succ]
    omega

/-! ## Segments of the free list -/

theorem Seg_nil {m : Nat → chunk} {p q : Option Nat} : Seg m p [] q ↔ p = q := Iff.rfl

theorem Seg_cons {m : Nat → chunk} {p q : Option Nat} {x : Nat} {F : List Nat} :
    Seg m p (x :: F) q ↔ p = some x ∧ Seg m (m x).next_free F q := Iff.rfl

theorem Seg_append {m : Nat → chunk} {p q : Option Nat} {F G : List Nat} :
    Seg m p (F ++ G) q ↔ ∃ r, Seg m p F r ∧ Seg m r G q := by
  induction F generalizing p with
  | nil => simp [Seg_nil]
  | cons x F ih =>
    rw [List.cons_append, Seg_cons, ih]
    constructor
    · rintro ⟨h1, r, h2, h3⟩
      exact ⟨r, ⟨h1, h2⟩, h3⟩
    · rintro ⟨r, ⟨h1, h2⟩, h3⟩
      exact ⟨h1, r, h2, h3⟩

theorem Seg_congr {m m' : Nat → chunk} {p q : Option Nat} {F : List Nat}
    (hf : ∀ x ∈ F, (m' x).next_free = (m x).next_free) (h : Seg m p F q) : Seg m' p F q := by
  induction F generalizing p with
  | nil => exact h
  | cons x F ih =>
    obtain ⟨h1, h2⟩ := h
    refine ⟨h1, ?_⟩
    rw [hf x (List.mem_cons_self x F)]
    exact ih (fun y hy => hf y (List.mem_cons_of_mem x hy)) h2

theorem Seg_unique_end {m : Nat → chunk} {p q q' : Option Nat} {F : List Nat}
    (h : Seg m p F q) (h' : Seg m p F q') : q = q' := by
  induction F generalizing p with
  | nil => exact (Seg_nil.1 h).symm.trans (Seg_nil.1 h')
  | cons x F ih => exact ih h.2 h'.2

/-- The pointer reached by following a segment: the head of `G`, or `q` when `G` is empty. -/
theorem Seg_head {m : Nat → chunk} {p q : Option Nat} {G : List Nat} (h : Seg m p G q) :
    p = match G with
      | [] => q
      | x :: _ => some x := by
  cases G with
  | nil => exact h
  | cons x G => exact h.1

theorem Agree_congr {m m' : Nat → chunk} {P : List row}
    (hf : ∀ c ∈ P, (m' c.addr).size = (m c.addr).size ∧ (m' c.addr).free = (m c.addr).free)
    (h : Agree m P) : Agree m' P := by
  intro c hc
  rw [(hf c hc).1, (hf c hc).2]
  exact h c hc

theorem Agree_append {m : Nat → chunk} {P Q : List row} :
    Agree m (P ++ Q) ↔ Agree m P ∧ Agree m Q := by
  unfold Agree
  simp only [List.mem_append]
  constructor
  · intro h
    exact ⟨fun c hc => h c (Or.inl hc), fun c hc => h c (Or.inr hc)⟩
  · rintro ⟨h1, h2⟩ c (hc | hc)
    · exact h1 c hc
    · exact h2 c hc

theorem Agree_cons {m : Nat → chunk} {c : row} {P : List row} :
    Agree m (c :: P) ↔ ((m c.addr).size = c.size ∧ (m c.addr).free = c.free) ∧ Agree m P := by
  unfold Agree
  simp only [List.mem_cons, forall_eq_or_imp]

theorem Agree_nil {m : Nat → chunk} : Agree m [] := by
  intro c hc
  cases hc

theorem mem_free_addrs {P : List row} {x : Nat} :
    x ∈ free_addrs P ↔ ∃ c ∈ P, c.free = true ∧ c.addr = x := by
  simp [free_addrs, and_assoc]

theorem mem_alloc_ptrs {P : List row} {p : Nat} :
    p ∈ alloc_ptrs P ↔ ∃ c ∈ P, c.free = false ∧ c.addr + SIZEOF_CHUNK = p := by
  simp [alloc_ptrs, and_assoc]

/-! ## The two read-only walks -/

theorem print_loop_eq {m : Nat → chunk} {P : List row} {a fuel : Nat}
    (ht : Tiled a P HEAP_SIZE) (ha : Agree m P) (hfuel : P.length < fuel) :
    print_loop m fuel a = some P := by
  induction P generalizing a fuel with
  | nil =>
    obtain ⟨k, rfl⟩ : ∃ k, fuel = k + 1 := ⟨fuel - 1, by simp at hfuel; omega⟩
    rw [Tiled_nil] at ht
    simp [print_loop, ht]
  | cons c P ih =>
    obtain ⟨k, rfl⟩ : ∃ k, fuel = k + 1 := ⟨fuel - 1, by simp at hfuel; omega⟩
    obtain ⟨h1, h2⟩ := ht
    obtain ⟨⟨hs, hf⟩, ha'⟩ := Agree_cons.1 ha
    have hlt : a < HEAP_SIZE := by
      have := Tiled_length h2
      unfold SIZEOF_CHUNK at this
      omega
    subst h1
    simp only [print_loop, hlt, if_true]
    rw [hs, ih h2 ha' (by simpa using hfuel), hf]
    rfl

theorem free_list_from_eq {m : Nat → chunk} {F : List Nat} {p : Option Nat} {fuel : Nat}
    (h : Seg m p F none) (hfuel : F.length < fuel) : free_list_from m fuel p = some F := by
  induction F generalizing p fuel with
  | nil =>
    obtain ⟨k, rfl⟩ : ∃ k, fuel = k + 1 := ⟨fuel - 1, by simp at hfuel; omega⟩
    rw [Seg_nil] at h
    subst h
    rfl
  | cons x F ih =>
    obtain ⟨k, rfl⟩ : ∃ k, fuel = k + 1 := ⟨fuel - 1, by simp at hfuel; omega⟩
    obtain ⟨h1, h2⟩ := h
    subst h1
    simp only [free_list_from]
    rw [ih h2 (by simpa using hfuel)]
    rfl

theorem free_addrs_length_le (P : List row) : (free_addrs P).length ≤ P.length := by
  unfold free_addrs
  rw [List.length_map]
  exact List.length_filter_le _ _

theorem Rep0.length_lt {h : heap} {P : List row} (hr : Rep0 h P) : P.length < HEAP_SIZE := by
  have h1 := Tiled_length hr.tiled
  have h2 := Tiled_end hr.tiled
  have h3 : 0 < P.length := by
    cases P with
    | nil => simp [total_bytes, HEAP_SIZE] at h2
    | cons c P => simp
  unfold SIZEOF_CHUNK at h1
  omega

theorem Rep0.print_eq {h : heap} {P : List row} (hr : Rep0 h P) {fuel : Nat}
    (hfuel : HEAP_SIZE ≤ fuel) : print_heap_state fuel h = some P :=
  print_loop_eq hr.tiled hr.agree (lt_of_lt_of_le hr.length_lt hfuel)

theorem Rep0.free_list_eq {h : heap} {P : List row} (hr : Rep0 h P) {fuel : Nat}
    (hfuel : HEAP_SIZE ≤ fuel) : free_list fuel h = some (free_addrs P) :=
  free_list_from_eq hr.linked
    (lt_of_le_of_lt (free_addrs_length_le P) (lt_of_lt_of_le hr.length_lt hfuel))

theorem Rep0.unique {h : heap} {P Q : List row} (hp : Rep0 h P) (hq : Rep0 h Q) : P = Q := by
  have h1 := hp.print_eq (le_refl HEAP_SIZE)
  have h2 := hq.print_eq (le_refl HEAP_SIZE)
  rw [h1] at h2
  exact Option.some.inj h2

/-! ## The two searching loops -/

theorem last_or_concat (p : Option Nat) (G : List Nat) (x : Nat) :
    last_or p (G ++ [x]) = some x := by
  induction G generalizing p with
  | nil => rfl
  | cons y G ih => exact ih (some y)

theorem alloc_loop_mono {h : heap} {s : Nat} {fuel : Nat} {prev cur : Option Nat}
    {r : Option Nat × heap} (k : Nat) (hr : alloc_loop h s fuel prev cur = some r) :
    alloc_loop h s (fuel + k) prev cur = some r := by
  induction fuel generalizing prev cur with
  | zero => simp [alloc_loop] at hr
  | succ f ih =>
    rw [Nat.add_right_comm]
    cases cur with
    | none => simpa [alloc_loop] using hr
    | some c =>
      simp only [alloc_loop] at hr ⊢
      split
      · rename_i hc
        simpa [hc] using hr
      · rename_i hc
        rw [if_neg hc] at hr
        exact ih hr

theorem alloc_loop_miss {h : heap} {s : Nat} {G : List Nat} {prev cur : Option Nat} {fuel : Nat}
    (hseg : Seg h.mem cur G none) (hsmall : ∀ x ∈ G, (h.mem x).size < s)
    (hfuel : G.length < fuel) : alloc_loop h s fuel prev cur = some (none, h) := by
  induction G generalizing prev cur fuel with
  | nil =>
    obtain ⟨k, rfl⟩ : ∃ k, fuel = k + 1 := ⟨fuel - 1, by simp at hfuel; omega⟩
    rw [Seg_nil] at hseg
    subst hseg
    rfl
  | cons x G ih =>
    obtain ⟨k, rfl⟩ : ∃ k, fuel = k + 1 := ⟨fuel - 1, by simp at hfuel; omega⟩
    obtain ⟨h1, h2⟩ := hseg
    subst h1
    have hx : ¬ (h.mem x).size ≥ s := by
      have := hsmall x (List.mem_cons_self x G)
      omega
    simp only [alloc_loop]
    rw [if_neg hx]
    exact ih h2 (fun y hy => hsmall y (List.mem_cons_of_mem x hy)) (by simpa using hfuel)

theorem alloc_loop_hit {h : heap} {s x : Nat} {G G' : List Nat} {prev cur q : Option Nat}
    {fuel : Nat} (hseg : Seg h.mem cur (G ++ x :: G') q)
    (hsmall : ∀ y ∈ G, (h.mem y).size < s) (hfit : s ≤ (h.mem x).size)
    (hfuel : G.length < fuel) :
    alloc_loop h s fuel prev cur = some (alloc_take h s (last_or prev G) x) := by
  induction G generalizing prev cur fuel with
  | nil =>
    obtain ⟨k, rfl⟩ : ∃ k, fuel = k + 1 := ⟨fuel - 1, by simp at hfuel; omega⟩
    obtain ⟨h1, _⟩ := hseg
    subst h1
    simp only [alloc_loop, last_or]
    rw [if_pos hfit]
  | cons y G ih =>
    obtain ⟨k, rfl⟩ : ∃ k, fuel = k + 1 := ⟨fuel - 1, by simp at hfuel; omega⟩
    obtain ⟨h1, h2⟩ := hseg
    subst h1
    have hy : ¬ (h.mem y).size ≥ s := by
      have := hsmall y (List.mem_cons_self y G)
      omega
    simp only [alloc_loop, last_or]
    rw [if_neg hy]
    exact ih h2 (fun z hz => hsmall z (List.mem_cons_of_mem y hz)) (by simpa using hfuel)

theorem free_walk_mono {m : Nat → chunk} {block fuel : Nat} {prev cur : Option Nat}
    {r : Option Nat × Option Nat} (k : Nat) (hr : free_walk m block fuel prev cur = some r) :
    free_walk m block (fuel + k) prev cur = some r := by
  induction fuel generalizing prev cur with
  | zero => simp [free_walk] at hr
  | succ f ih =>
    rw [Nat.add_right_comm]
    cases cur with
    | none => simpa [free_walk] using hr
    | some c =>
      simp only [free_walk] at hr ⊢
      split
      · rename_i hc
        rw [if_pos hc] at hr
        exact ih hr
      · rename_i hc
        simpa [hc] using hr

theorem free_walk_eq {m : Nat → chunk} {block : Nat} {G G' : List Nat} {prev cur : Option Nat}
    {fuel : Nat} (hseg : Seg m cur (G ++ G') none) (hlow : ∀ y ∈ G, y < block)
    (hhigh : ∀ y ∈ G'.head?, block ≤ y) (hfuel : G.length < fuel) :
    free_walk m block fuel prev cur = some (last_or prev G, G'.head?) := by
  induction G generalizing prev cur fuel with
  | nil =>
    obtain ⟨k, rfl⟩ : ∃ k, fuel = k + 1 := ⟨fuel - 1, by simp at hfuel; omega⟩
    cases G' with
    | nil =>
      have := Seg_nil.1 hseg
      subst this
      rfl
    | cons z G' =>
      obtain ⟨h1, _⟩ := hseg
      subst h1
      have hz : ¬ z < block := by
        have := hhigh z (by simp)
        omega
      simp only [free_walk, last_or, List.head?_cons]
      rw [if_neg hz]
  | cons y G ih =>
    obtain ⟨k, rfl⟩ : ∃ k, fuel = k + 1 := ⟨fuel - 1, by simp at hfuel; omega⟩
    obtain ⟨h1, h2⟩ := hseg
    subst h1
    have hy : y < block := hlow y (List.mem_cons_self y G)
    simp only [free_walk, last_or]
    rw [if_pos hy]
    exact ih h2 (fun z hz => hlow z (List.mem_cons_of_mem y hz)) (by simpa using hfuel)

/-! ## Order of the offsets in a tiled layout -/

theorem Tiled_split {a e : Nat} {P1 P2 : List row} {c : row}
    (h : Tiled a (P1 ++ c :: P2) e) :
    Tiled a P1 c.addr ∧ Tiled (c.addr + SIZEOF_CHUNK + c.size) P2 e := by
  obtain ⟨b, h1, h2, h3⟩ := Tiled_append.1 h
  subst h2
  exact ⟨h1, h3⟩

theorem Tiled_before {a e : Nat} {P1 P2 : List row} {c d : row}
    (h : Tiled a (P1 ++ c :: P2) e) (hd : d ∈ P1) :
    d.addr + SIZEOF_CHUNK + d.size ≤ c.addr :=
  (Tiled_mem (Tiled_split h).1 hd).2

theorem Tiled_after {a e : Nat} {P1 P2 : List row} {c d : row}
    (h : Tiled a (P1 ++ c :: P2) e) (hd : d ∈ P2) :
    c.addr + SIZEOF_CHUNK + c.size ≤ d.addr :=
  (Tiled_mem (Tiled_split h).2 hd).1

theorem Tiled_free_addrs_sorted {a e : Nat} {P : List row} (h : Tiled a P e) :
    (free_addrs P).Pairwise (fun x y => x < y) := by
  induction P generalizing a with
  | nil => simp [free_addrs]
  | cons c P ih =>
    obtain ⟨h1, h2⟩ := h
    rw [free_addrs_cons]
    split
    · rw [List.pairwise_cons]
      refine ⟨?_, ih h2⟩
      intro y hy
      obtain ⟨d, hd, _, rfl⟩ := mem_free_addrs.1 hy
      have := (Tiled_mem h2 hd).1
      unfold SIZEOF_CHUNK at this
      omega
    · exact ih h2

theorem Tiled_free_addrs_nodup {a e : Nat} {P : List row} (h : Tiled a P e) :
    (free_addrs P).Nodup :=
  (Tiled_free_addrs_sorted h).imp (fun hxy => Nat.ne_of_lt hxy)

/-! ## Relinking a predecessor -/

theorem nil_or_snoc {α : Type} (F : List α) : F = [] ∨ ∃ G y, F = G ++ [y] := by
  rcases List.eq_nil_or_concat F with h | ⟨G, y, h⟩
  · exact Or.inl h
  · exact Or.inr ⟨G, y, by rw [h, List.concat_eq_append]⟩

theorem last_or_mem {F : List Nat} {x : Nat} (h : last_or none F = some x) : x ∈ F := by
  rcases nil_or_snoc F with rfl | ⟨G, y, rfl⟩
  · simp [last_or] at h
  · rw [last_or_concat] at h
    simp [Option.some.inj h]

@[simp] theorem set_link_avail (h : heap) (p t : Option Nat) :
    (set_link h p t).avail = h.avail := by
  cases p <;> rfl

@[simp] theorem set_link_size (h : heap) (p t : Option Nat) (x : Nat) :
    ((set_link h p t).mem x).size = (h.mem x).size := by
  cases p <;> simp [set_link]

@[simp] theorem set_link_free (h : heap) (p t : Option Nat) (x : Nat) :
    ((set_link h p t).mem x).free = (h.mem x).free := by
  cases p <;> simp [set_link]

theorem set_link_next (h : heap) (p t : Option Nat) (x : Nat) :
    ((set_link h p t).mem x).next_free = if p = some x then t else (h.mem x).next_free := by
  cases p with
  | none => simp [set_link]
  | some y =>
    simp only [set_link, set_next_next, Option.some.injEq]
    by_cases hxy : x = y
    · simp [hxy]
    · have : ¬ y = x := fun e => hxy e.symm
      simp [hxy, this]

theorem Seg_set_link {h : heap} {F : List Nat} {r : Option Nat} (t : Option Nat)
    (hseg : Seg h.mem h.free_list_head F r) (hnd : F.Nodup) :
    Seg (set_link h (last_or none F) t).mem (set_link h (last_or none F) t).free_list_head F t := by
  rcases nil_or_snoc F with rfl | ⟨G, y, rfl⟩
  · exact Seg_nil.2 rfl
  · rw [last_or_concat]
    obtain ⟨r', h1, h2, _⟩ := Seg_append.1 hseg
    subst h2
    refine Seg_append.2 ⟨some y, ?_, rfl, ?_⟩
    · refine Seg_congr (fun x hx => ?_) h1
      have hne : x ≠ y := by
        rintro rfl
        have := List.disjoint_of_nodup_append hnd
        exact this hx (List.mem_singleton_self x)
      simp [set_link, hne]
    · simp [set_link, Seg_nil]

/-! ## Allocation keeps the layout -/

theorem Rep0.total {h : heap} {P : List row} (hr : Rep0 h P) : total_bytes P = HEAP_SIZE := by
  have := Tiled_end hr.tiled
  omega

theorem alloc_take_split_rep0 {h : heap} {P1 P2 : List row} {c : row} {s : Nat}
    (hr : Rep0 h (P1 ++ c :: P2)) (hc : c.free = true) (hs : s ≤ c.size)
    (hsp : c.size - s > SIZEOF_CHUNK) :
    Rep0 (alloc_take h s (last_or none (free_addrs P1)) c.addr).2
      (P1 ++ { addr := c.addr, size := s, free := false } ::
        { addr := c.addr + SIZEOF_CHUNK + s, size := c.size - s - SIZEOF_CHUNK, free := true } ::
        P2) := by
  have htot := hr.total
  have hle := free_bytes_le_total (P1 ++ c :: P2)
  obtain ⟨ht, ha, hl, hav⟩ := hr
  obtain ⟨ht1, ht2⟩ := Tiled_split ht
  obtain ⟨ha1, ha2⟩ := Agree_append.1 ha
  obtain ⟨⟨hcs, hcf⟩, ha2⟩ := Agree_cons.1 ha2
  have hbefore : ∀ d ∈ P1, d.addr + SIZEOF_CHUNK + d.size ≤ c.addr :=
    fun d hd => Tiled_before ht hd
  have hafter : ∀ d ∈ P2, c.addr + SIZEOF_CHUNK + c.size ≤ d.addr :=
    fun d hd => Tiled_after ht hd
  rw [free_addrs_append, free_addrs_cons, if_pos hc] at hl
  obtain ⟨r, hl1, hr', hl2⟩ := Seg_append.1 hl
  subst hr'
  have hnd : (free_addrs P1).Nodup := Tiled_free_addrs_nodup ht1
  have hprev : ∀ x ∈ free_addrs P1, x + SIZEOF_CHUNK ≤ c.addr := by
    intro x hx
    obtain ⟨d, hd, _, rfl⟩ := mem_free_addrs.1 hx
    have := hbefore d hd
    omega
  have hnext : ∀ x ∈ free_addrs P2, c.addr + SIZEOF_CHUNK + c.size ≤ x := by
    intro x hx
    obtain ⟨d, hd, _, rfl⟩ := mem_free_addrs.1 hx
    exact hafter d hd
  have hsz : (h.mem c.addr).size - s > SIZEOF_CHUNK := by rw [hcs]; exact hsp
  unfold alloc_take
  simp only [hsz, if_true]
  simp only [SIZEOF_CHUNK, UINT32_MOD, HEAP_SIZE] at *
  constructor
  · refine Tiled_append.2 ⟨c.addr, ht1, rfl, rfl, ?_⟩
    have e : c.addr + SIZEOF_CHUNK + s + SIZEOF_CHUNK + (c.size - s - 16) =
        c.addr + 16 + c.size := by
      simp only [SIZEOF_CHUNK]; omega
    simp only [e]
    exact ht2
  · refine Agree_append.2 ⟨Agree_congr (fun d hd => ?_) ha1, Agree_cons.2 ⟨?_, Agree_cons.2
      ⟨?_, Agree_congr (fun d hd => ?_) ha2⟩⟩⟩
    · have := hbefore d hd
      have h1 : d.addr ≠ c.addr := by omega
      have h2 : d.addr ≠ c.addr + 16 + s := by omega
      simp [h1, h2]
    · simp
    · have h3 : ¬ c.addr + 16 + s = c.addr := by omega
      simp [h3, hcs]
    · have := hafter d hd
      have h1 : d.addr ≠ c.addr := by omega
      have h2 : d.addr ≠ c.addr + 16 + s := by omega
      simp [h1, h2]
  · rw [free_addrs_append, free_addrs_cons, free_addrs_cons]
    simp only [Bool.false_eq_true, if_false, if_true]
    have hpne : ∀ x, c.addr ≤ x → last_or none (free_addrs P1) ≠ some x := by
      intro x hx e
      have := hprev x (last_or_mem e)
      omega
    refine Seg_append.2 ⟨some (c.addr + 16 + s), ?_, rfl, ?_⟩
    · refine Seg_congr (m := (set_link _ _ _).mem) ?_
        (Seg_set_link _ (r := some c.addr) (Seg_congr (fun x hx => ?_) hl1) hnd)
      · intro x _
        simp
      · have := hprev x hx
        have h1 : x ≠ c.addr + 16 + s := by omega
        simp [h1]
    · have h3 : ¬ c.addr + 16 + s = c.addr := by omega
      have h4 := hpne (c.addr + 16 + s) (by omega)
      have h5 : ¬ c.addr = c.addr + 16 + s := by omega
      refine Seg_congr (fun x hx => ?_) ?_ (m := h.mem)
      · have := hnext x hx
        have h1 : x ≠ c.addr + 16 + s := by omega
        have h2 := hpne x (by omega)
        simp [set_link_next, h1, h2]
      · simpa [set_link_next, h3, h4, h5] using hl2
  · rw [free_bytes_append, free_bytes_cons, free_bytes_cons]
    rw [free_bytes_append, free_bytes_cons, if_pos hc] at hav hle
    rw [total_bytes_append, total_bytes_cons] at hle htot
    simp only [SIZEOF_CHUNK] at *
    simp
    omega

theorem alloc_take_whole_rep0 {h : heap} {P1 P2 : List row} {c : row} {s : Nat}
    (hr : Rep0 h (P1 ++ c :: P2)) (hc : c.free = true)
    (hsp : ¬ c.size - s > SIZEOF_CHUNK) :
    Rep0 (alloc_take h s (last_or none (free_addrs P1)) c.addr).2
      (P1 ++ { addr := c.addr, size := c.size, free := false } :: P2) := by
  have htot := hr.total
  have hle := free_bytes_le_total (P1 ++ c :: P2)
  obtain ⟨ht, ha, hl, hav⟩ := hr
  obtain ⟨ht1, ht2⟩ := Tiled_split ht
  obtain ⟨ha1, ha2⟩ := Agree_append.1 ha
  obtain ⟨⟨hcs, hcf⟩, ha2⟩ := Agree_cons.1 ha2
  have hbefore : ∀ d ∈ P1, d.addr + SIZEOF_CHUNK + d.size ≤ c.addr :=
    fun d hd => Tiled_before ht hd
  have hafter : ∀ d ∈ P2, c.addr + SIZEOF_CHUNK + c.size ≤ d.addr :=
    fun d hd => Tiled_after ht hd
  rw [free_addrs_append, free_addrs_cons, if_pos hc] at hl
  obtain ⟨r, hl1, hr', hl2⟩ := Seg_append.1 hl
  subst hr'
  have hnd : (free_addrs P1).Nodup := Tiled_free_addrs_nodup ht1
  have hprev : ∀ x ∈ free_addrs P1, x + SIZEOF_CHUNK ≤ c.addr := by
    intro x hx
    obtain ⟨d, hd, _, rfl⟩ := mem_free_addrs.1 hx
    have := hbefore d hd
    omega
  have hnext : ∀ x ∈ free_addrs P2, c.addr + SIZEOF_CHUNK + c.size ≤ x := by
    intro x hx
    obtain ⟨d, hd, _, rfl⟩ := mem_free_addrs.1 hx
    exact hafter d hd
  have hsz : ¬ (h.mem c.addr).size - s > SIZEOF_CHUNK := by rw [hcs]; exact hsp
  unfold alloc_take
  simp only [hsz, if_false]
  simp only [SIZEOF_CHUNK, UINT32_MOD, HEAP_SIZE] at *
  constructor
  · exact Tiled_append.2 ⟨c.addr, ht1, rfl, ht2⟩
  · refine Agree_append.2 ⟨Agree_congr (fun d hd => ?_) ha1, Agree_cons.2
      ⟨?_, Agree_congr (fun d hd => ?_) ha2⟩⟩
    · have := hbefore d hd
      have h1 : d.addr ≠ c.addr := by omega
      simp [h1]
    · simp [hcs]
    · have := hafter d hd
      have h1 : d.addr ≠ c.addr := by omega
      simp [h1]
  · rw [free_addrs_append, free_addrs_cons]
    simp only [Bool.false_eq_true, if_false]
    have hpne : ∀ x, c.addr ≤ x → last_or none (free_addrs P1) ≠ some x := by
      intro x hx e
      have := hprev x (last_or_mem e)
      omega
    refine Seg_append.2 ⟨(h.mem c.addr).next_free, ?_, ?_⟩
    · refine Seg_congr (m := (set_link _ _ _).mem) ?_
        (Seg_set_link _ (r := some c.addr) hl1 hnd)
      intro x _
      simp
    · refine Seg_congr (fun x hx => ?_) hl2
      have := hnext x hx
      have h2 := hpne x (by omega)
      simp [set_link_next, h2]
  · rw [free_bytes_append, free_bytes_cons]
    rw [free_bytes_append, free_bytes_cons, if_pos hc] at hav hle
    rw [total_bytes_append, total_bytes_cons] at hle htot
    simp only [SIZEOF_CHUNK] at *
    simp [hcs]
    omega

/-! ## Neighbouring free rows -/

theorem noadj_mid {P1 P2 : List row} {c : row} :
    NoAdjFree (P1 ++ c :: P2) ↔
      NoAdjFree P1 ∧ NoAdjFree P2 ∧
        (∀ x ∈ P1.getLast?, ¬ (x.free = true ∧ c.free = true)) ∧
        (∀ y ∈ P2.head?, ¬ (c.free = true ∧ y.free = true)) := by
  unfold NoAdjFree
  rw [List.chain'_append, List.chain'_cons']
  simp only [List.head?_cons, Option.mem_def, Option.some.injEq, forall_eq']
  tauto

theorem noadj_nil : NoAdjFree [] := List.chain'_nil

theorem noadj_snoc {P : List row} {c : row} :
    NoAdjFree (P ++ [c]) ↔
      NoAdjFree P ∧ (∀ x ∈ P.getLast?, ¬ (x.free = true ∧ c.free = true)) := by
  rw [noadj_mid]
  simp [noadj_nil]

theorem noadj_cons {P : List row} {c : row} :
    NoAdjFree (c :: P) ↔
      NoAdjFree P ∧ (∀ y ∈ P.head?, ¬ (c.free = true ∧ y.free = true)) := by
  have := @noadj_mid [] P c
  simpa [noadj_nil] using this

theorem alloc_rows_noadj {P1 P2 : List row} {c : row} (s : Nat)
    (h : NoAdjFree (P1 ++ c :: P2)) (hc : c.free = true) :
    NoAdjFree (P1 ++ alloc_rows c s ++ P2) := by
  obtain ⟨h1, h2, h3, h4⟩ := noadj_mid.1 h
  unfold alloc_rows
  split
  · have e : P1 ++ [{ addr := c.addr, size := s, free := false },
        { addr := c.addr + SIZEOF_CHUNK + s, size := c.size - s - SIZEOF_CHUNK, free := true }]
        ++ P2 = (P1 ++ [{ addr := c.addr, size := s, free := false }]) ++
        { addr := c.addr + SIZEOF_CHUNK + s, size := c.size - s - SIZEOF_CHUNK, free := true }
          :: P2 := by simp
    rw [e, noadj_mid, noadj_snoc]
    refine ⟨⟨h1, ?_⟩, h2, ?_, ?_⟩
    · intro x _
      simp
    · simp
    · intro y hy
      simpa [hc] using h4 y hy
  · have e : P1 ++ [{ addr := c.addr, size := c.size, free := false }] ++ P2 =
        P1 ++ { addr := c.addr, size := c.size, free := false } :: P2 := by simp
    rw [e, noadj_mid]
    refine ⟨h1, h2, ?_, ?_⟩
    · intro x _
      simp
    · intro y _
      simp

theorem alloc_take_rep {h : heap} {P1 P2 : List row} {c : row} {s : Nat}
    (hr : Rep h (P1 ++ c :: P2)) (hc : c.free = true) (hs : s ≤ c.size) :
    Rep (alloc_take h s (last_or none (free_addrs P1)) c.addr).2 (P1 ++ alloc_rows c s ++ P2) := by
  refine ⟨?_, alloc_rows_noadj s hr.noadj hc⟩
  unfold alloc_rows
  split
  · rename_i hsp
    simpa using alloc_take_split_rep0 hr.rep0 hc hs hsp
  · rename_i hsp
    simpa using alloc_take_whole_rep0 hr.rep0 hc hsp

theorem alloc_take_ptr (h : heap) (s : Nat) (prev : Option Nat) (a : Nat) :
    (alloc_take h s prev a).1 = some (a + SIZEOF_CHUNK) := rfl

/-! ## The search of `heap_alloc` on a layout -/

theorem first_fit_cases (P : List row) (s : Nat) :
    (∀ c ∈ P, c.free = true → c.size < s) ∨
      ∃ P1 c P2, P = P1 ++ c :: P2 ∧ c.free = true ∧ s ≤ c.size ∧
        ∀ d ∈ P1, d.free = true → d.size < s := by
  induction P with
  | nil => left; intro c hc; cases hc
  | cons c P ih =>
    by_cases hfit : c.free = true ∧ s ≤ c.size
    · right
      exact ⟨[], c, P, rfl, hfit.1, hfit.2, fun d hd => by cases hd⟩
    · rcases ih with ih | ⟨P1, d, P2, rfl, hd, hds, hsm⟩
      · left
        intro x hx hxf
        rcases List.mem_cons.1 hx with rfl | hx
        · by_contra hn
          exact hfit ⟨hxf, by omega⟩
        · exact ih x hx hxf
      · right
        refine ⟨c :: P1, d, P2, rfl, hd, hds, ?_⟩
        intro x hx hxf
        rcases List.mem_cons.1 hx with rfl | hx
        · by_contra hn
          exact hfit ⟨hxf, by omega⟩
        · exact hsm x hx hxf

theorem free_addrs_small {m : Nat → chunk} {P : List row} {s : Nat} (ha : Agree m P)
    (hsm : ∀ d ∈ P, d.free = true → d.size < s) : ∀ x ∈ free_addrs P, (m x).size < s := by
  intro x hx
  obtain ⟨d, hd, hdf, rfl⟩ := mem_free_addrs.1 hx
  rw [(ha d hd).1]
  exact hsm d hd hdf

theorem heap_alloc_mono {h : heap} {n fuel : Nat} {r : Option Nat × heap} (k : Nat)
    (hr : heap_alloc fuel h n = some r) : heap_alloc (fuel + k) h n = some r := by
  unfold heap_alloc at hr ⊢
  split
  · rename_i h0
    simpa [h0] using hr
  · rename_i h0
    rw [if_neg h0] at hr
    exact alloc_loop_mono k hr

theorem heap_alloc_miss {h : heap} {P : List row} {n fuel : Nat} (hr : Rep0 h P)
    (hsm : ∀ c ∈ P, c.free = true → c.size < align_up n) (hfuel : HEAP_SIZE ≤ fuel) :
    heap_alloc fuel h n = some (none, h) := by
  unfold heap_alloc
  split
  · rfl
  · exact alloc_loop_miss hr.linked (free_addrs_small hr.agree hsm)
      (lt_of_le_of_lt (free_addrs_length_le P) (lt_of_lt_of_le hr.length_lt hfuel))

theorem heap_alloc_hit {h : heap} {P1 P2 : List row} {c : row} {n fuel : Nat}
    (hr : Rep0 h (P1 ++ c :: P2)) (hn : n ≠ 0) (hc : c.free = true)
    (hfit : align_up n ≤ c.size) (hsm : ∀ d ∈ P1, d.free = true → d.size < align_up n)
    (hfuel : HEAP_SIZE ≤ fuel) :
    heap_alloc fuel h n =
      some (alloc_take h (align_up n) (last_or none (free_addrs P1)) c.addr) := by
  unfold heap_alloc
  rw [if_neg hn]
  have hl := hr.linked
  rw [free_addrs_append, free_addrs_cons, if_pos hc] at hl
  have ha := Agree_append.1 hr.agree
  have hcs := (Agree_cons.1 ha.2).1.1
  refine alloc_loop_hit hl (free_addrs_small ha.1 hsm) (by rw [hcs]; exact hfit) ?_
  have h1 := free_addrs_length_le P1
  have h2 := hr.length_lt
  simp only [List.length_append, List.length_cons] at h2
  omega

/-! ## Release: marking, walking and the left neighbour -/

theorem Seg_head_eq {m : Nat → chunk} {p : Option Nat} {G : List Nat} (h : Seg m p G none) :
    p = G.head? := by
  cases G with
  | nil => exact h
  | cons x G => exact h.1

theorem free_mark_mid {h : heap} {P1 P2 : List row} {b : row}
    (hr : Rep0 h (P1 ++ b :: P2)) (hb : b.free = false) :
    Mid (free_mark h b.addr) P1 { addr := b.addr, size := b.size, free := true } P2 := by
  have htot := hr.total
  have hle1 := free_bytes_le_total P1
  have hle2 := free_bytes_le_total P2
  obtain ⟨ht, ha, hl, hav⟩ := hr
  obtain ⟨ht1, ht2⟩ := Tiled_split ht
  obtain ⟨ha1, ha2⟩ := Agree_append.1 ha
  obtain ⟨⟨hbs, hbf⟩, ha2⟩ := Agree_cons.1 ha2
  have hbefore : ∀ d ∈ P1, d.addr + SIZEOF_CHUNK + d.size ≤ b.addr :=
    fun d hd => Tiled_before ht hd
  have hafter : ∀ d ∈ P2, b.addr + SIZEOF_CHUNK + b.size ≤ d.addr :=
    fun d hd => Tiled_after ht hd
  rw [free_addrs_append, free_addrs_cons, hb] at hl
  simp only [Bool.false_eq_true, if_false] at hl
  unfold free_mark
  simp only [SIZEOF_CHUNK, UINT32_MOD, HEAP_SIZE] at *
  refine ⟨?_, ?_, ?_, ?_, rfl⟩
  · exact Tiled_append.2 ⟨b.addr, ht1, rfl, ht2⟩
  · refine Agree_append.2 ⟨Agree_congr (fun d hd => ?_) ha1, Agree_cons.2
      ⟨?_, Agree_congr (fun d hd => ?_) ha2⟩⟩
    · have := hbefore d hd
      have h1 : d.addr ≠ b.addr := by omega
      simp [h1]
    · simp [hbs]
    · have := hafter d hd
      have h1 : d.addr ≠ b.addr := by omega
      simp [h1]
  · exact Seg_congr (fun x _ => by simp) hl
  · rw [free_bytes_append, free_bytes_cons]
    rw [free_bytes_append, free_bytes_cons, hb] at hav
    rw [total_bytes_append, total_bytes_cons] at htot
    simp only [SIZEOF_CHUNK] at *
    simp [hbs] at hav ⊢
    omega

theorem Mid.low {h : heap} {P1 P2 : List row} {b : row} (hm : Mid h P1 b P2) :
    ∀ x ∈ free_addrs P1, x + SIZEOF_CHUNK ≤ b.addr := by
  intro x hx
  obtain ⟨d, hd, _, rfl⟩ := mem_free_addrs.1 hx
  have := Tiled_before hm.tiled hd
  omega

theorem Mid.high {h : heap} {P1 P2 : List row} {b : row} (hm : Mid h P1 b P2) :
    ∀ x ∈ free_addrs P2, b.addr + SIZEOF_CHUNK + b.size ≤ x := by
  intro x hx
  obtain ⟨d, hd, _, rfl⟩ := mem_free_addrs.1 hx
  exact Tiled_after hm.tiled hd

theorem Mid.walk {h : heap} {P1 P2 : List row} {b : row} (hm : Mid h P1 b P2) {fuel : Nat}
    (hfuel : HEAP_SIZE ≤ fuel) :
    free_walk h.mem b.addr fuel none h.free_list_head =
      some (last_or none (free_addrs P1), (free_addrs P2).head?) := by
  refine free_walk_eq hm.linked ?_ ?_ ?_
  · intro y hy
    have := hm.low y hy
    unfold SIZEOF_CHUNK at this
    omega
  · intro y hy
    have := hm.high y (List.mem_of_mem_head? hy)
    omega
  · have h1 := free_addrs_length_le P1
    have h2 := Tiled_length hm.tiled
    simp only [List.length_append, List.length_cons, SIZEOF_CHUNK, HEAP_SIZE] at h2 hfuel
    omega

theorem Tiled_touch {a e : Nat} {P1 P2 : List row} {b d : row}
    (ht : Tiled a (P1 ++ b :: P2) e) (hd : d ∈ P1)
    (htouch : d.addr + SIZEOF_CHUNK + d.size = b.addr) : P1.getLast? = some d := by
  rcases List.eq_nil_or_concat P1 with rfl | ⟨Q, l, rfl⟩
  · cases hd
  · rw [List.concat_eq_append] at ht hd ⊢
    rw [List.getLast?_concat]
    rw [List.append_assoc] at ht
    have hl : l.addr + SIZEOF_CHUNK + l.size = b.addr := by
      obtain ⟨_, h2⟩ := Tiled_split ht
      exact h2.1.symm
    rcases List.mem_append.1 hd with hq | hq
    · have := Tiled_before ht hq
      unfold SIZEOF_CHUNK at *
      omega
    · rw [List.mem_singleton.1 hq]

theorem free_left_link {h : heap} {P1 P2 : List row} {b : row} (hm : Mid h P1 b P2)
    (hlast : ∀ x ∈ P1.getLast?, x.free = false) :
    (free_left h b.addr (last_or none (free_addrs P1)) (free_addrs P2).head?).2 = b.addr ∧
      Rep0 (free_left h b.addr (last_or none (free_addrs P1)) (free_addrs P2).head?).1
        (P1 ++ b :: P2) := by
  have hlow := hm.low
  have hhigh := hm.high
  obtain ⟨ht, ha, hl, hav, hb⟩ := hm
  obtain ⟨ha1, ha2⟩ := Agree_append.1 ha
  obtain ⟨⟨hbs, hbf⟩, ha2⟩ := Agree_cons.1 ha2
  obtain ⟨r, hl1, hl2⟩ := Seg_append.1 hl
  have hr := Seg_head_eq hl2
  subst hr
  have hnd : (free_addrs P1).Nodup := Tiled_free_addrs_nodup (Tiled_split ht).1
  have hpne : ∀ x, b.addr ≤ x → last_or none (free_addrs P1) ≠ some x := by
    intro x hx e
    have := hlow x (last_or_mem e)
    unfold SIZEOF_CHUNK at this
    omega
  have hfl : free_left h b.addr (last_or none (free_addrs P1)) (free_addrs P2).head? =
      (free_link h b.addr (last_or none (free_addrs P1)) (free_addrs P2).head?, b.addr) := by
    unfold free_left
    cases hp : last_or none (free_addrs P1) with
    | none => rfl
    | some pv =>
      obtain ⟨d, hd, hdf, rfl⟩ := mem_free_addrs.1 (last_or_mem hp)
      have hne : ¬ d.addr + SIZEOF_CHUNK + (h.mem d.addr).size = b.addr := by
        intro e
        rw [(ha1 d hd).1] at e
        have := hlast d (Tiled_touch ht hd e)
        rw [hdf] at this
        cases this
      simp only [hne, if_false]
  rw [hfl]
  refine ⟨rfl, ?_⟩
  unfold free_link
  simp only [SIZEOF_CHUNK, UINT32_MOD, HEAP_SIZE] at *
  refine ⟨ht, ?_, ?_, ?_⟩
  · exact Agree_congr (fun d _ => by simp) ha
  · rw [free_addrs_append, free_addrs_cons, if_pos hb]
    refine Seg_append.2 ⟨some b.addr, ?_, rfl, ?_⟩
    · refine Seg_congr (m := (set_link _ _ _).mem) ?_ (Seg_set_link _ hl1 hnd)
      intro x hx
      have := hlow x hx
      have h1 : x ≠ b.addr := by omega
      simp [h1]
    · refine Seg_congr (fun x hx => ?_) ?_ (m := h.mem)
      · have := hhigh x hx
        have h1 : x ≠ b.addr := by omega
        have h2 := hpne x (by omega)
        simp [set_link_next, h1, h2]
      · simpa using hl2
  · simpa using hav

theorem free_left_merge {h : heap} {Q1 P2 : List row} {l b : row}
    (hm : Mid h (Q1 ++ [l]) b P2) (hlf : l.free = true) (cur : Option Nat) :
    (free_left h b.addr (last_or none (free_addrs (Q1 ++ [l]))) cur).2 = l.addr ∧
      Rep0 (free_left h b.addr (last_or none (free_addrs (Q1 ++ [l]))) cur).1
        (Q1 ++ { addr := l.addr, size := l.size + SIZEOF_CHUNK + b.size, free := true } :: P2) := by
  have htot : total_bytes ((Q1 ++ [l]) ++ b :: P2) = HEAP_SIZE := by
    have := Tiled_end hm.tiled
    omega
  obtain ⟨ht, ha, hl, hav, hb⟩ := hm
  have hF : free_addrs (Q1 ++ [l]) = free_addrs Q1 ++ [l.addr] := by
    rw [free_addrs_append, free_addrs_cons, if_pos hlf]
    rfl
  rw [hF, last_or_concat]
  rw [hF] at hl
  rw [List.append_assoc] at ht ha hav htot hl
  simp only [List.singleton_append] at ht ha hav htot hl
  obtain ⟨ht1, ht2⟩ := Tiled_split ht
  obtain ⟨hba, ht2⟩ := ht2
  obtain ⟨ha1, ha2⟩ := Agree_append.1 ha
  obtain ⟨⟨hls, hlf'⟩, ha2⟩ := Agree_cons.1 ha2
  obtain ⟨⟨hbs, hbf⟩, ha2⟩ := Agree_cons.1 ha2
  have hbefore : ∀ d ∈ Q1, d.addr + SIZEOF_CHUNK + d.size ≤ l.addr :=
    fun d hd => Tiled_before ht hd
  have hafter : ∀ d ∈ P2, b.addr + SIZEOF_CHUNK + b.size ≤ d.addr := by
    intro d hd
    have := (Tiled_mem ht2 hd).1
    omega
  have hle := free_bytes_le_total (Q1 ++ l :: b :: P2)
  have hcond : l.addr + SIZEOF_CHUNK + (h.mem l.addr).size = b.addr := by
    rw [hls]; exact hba.symm
  unfold free_left
  simp only [hcond, if_true]
  refine ⟨trivial, ?_⟩
  rw [total_bytes_append, total_bytes_cons, total_bytes_cons] at htot hle
  simp only [SIZEOF_CHUNK, UINT32_MOD, HEAP_SIZE] at *
  have hmod : (l.size + (16 + b.size)) % 4294967296 = l.size + 16 + b.size := by omega
  refine ⟨?_, ?_, ?_, ?_⟩
  · refine Tiled_append.2 ⟨l.addr, ht1, rfl, ?_⟩
    have e : l.addr + SIZEOF_CHUNK + (l.size + 16 + b.size) =
        l.addr + 16 + l.size + 16 + b.size := by
      simp only [SIZEOF_CHUNK]; omega
    simp only [e]
    exact ht2
  · refine Agree_append.2 ⟨Agree_congr (fun d hd => ?_) ha1, Agree_cons.2
      ⟨?_, Agree_congr (fun d hd => ?_) ha2⟩⟩
    · have := hbefore d hd
      have h1 : d.addr ≠ l.addr := by omega
      simp [h1]
    · simp [hls, hbs, hmod, hlf', hlf]
    · have := hafter d hd
      have h1 : d.addr ≠ l.addr := by omega
      simp [h1]
  · rw [free_addrs_append, free_addrs_cons]
    simp only [if_true]
    exact Seg_congr (fun x _ => by simp) hl
  · rw [free_bytes_append, free_bytes_cons]
    rw [free_bytes_append, free_bytes_cons, free_bytes_cons, if_pos hlf, if_pos hb] at hav
    simp only [SIZEOF_CHUNK] at *
    simp at hav ⊢
    omega

theorem free_right_merge {h : heap} {Q1 P2 : List row} {t r : row}
    (hr : Rep0 h (Q1 ++ t :: r :: P2)) (htf : t.free = true) (hrf : r.free = true) :
    Rep0 (free_right h t.addr (free_addrs (r :: P2)).head?)
      (Q1 ++ { addr := t.addr, size := t.size + SIZEOF_CHUNK + r.size, free := true } :: P2) := by
  have htot := hr.total
  have hle := free_bytes_le_total (Q1 ++ t :: r :: P2)
  obtain ⟨ht, ha, hl, hav⟩ := hr
  obtain ⟨ht1, ht2⟩ := Tiled_split ht
  obtain ⟨hra, ht2⟩ := ht2
  obtain ⟨ha1, ha2⟩ := Agree_append.1 ha
  obtain ⟨⟨hts, htf'⟩, ha2⟩ := Agree_cons.1 ha2
  obtain ⟨⟨hrs, hrf'⟩, ha2⟩ := Agree_cons.1 ha2
  have hbefore : ∀ d ∈ Q1, d.addr + SIZEOF_CHUNK + d.size ≤ t.addr :=
    fun d hd => Tiled_before ht hd
  have hafter : ∀ d ∈ P2, r.addr + SIZEOF_CHUNK + r.size ≤ d.addr := by
    intro d hd
    have := (Tiled_mem ht2 hd).1
    omega
  rw [free_addrs_append, free_addrs_cons, if_pos htf, free_addrs_cons, if_pos hrf] at hl
  obtain ⟨q, hl1, hq, hl2⟩ := Seg_append.1 hl
  subst hq
  obtain ⟨hl2, hl3⟩ := hl2
  rw [free_addrs_cons, if_pos hrf, List.head?_cons]
  have hcond : t.addr + SIZEOF_CHUNK + (h.mem t.addr).size = r.addr := by
    rw [hts]; exact hra.symm
  unfold free_right
  simp only [hcond, if_true]
  rw [total_bytes_append, total_bytes_cons, total_bytes_cons] at htot hle
  simp only [SIZEOF_CHUNK, UINT32_MOD, HEAP_SIZE] at *
  have hmod : (t.size + (16 + r.size)) % 4294967296 = t.size + 16 + r.size := by omega
  have hne : r.addr ≠ t.addr := by omega
  refine ⟨?_, ?_, ?_, ?_⟩
  · refine Tiled_append.2 ⟨t.addr, ht1, rfl, ?_⟩
    have e : t.addr + SIZEOF_CHUNK + (t.size + 16 + r.size) =
        t.addr + 16 + t.size + 16 + r.size := by
      simp only [SIZEOF_CHUNK]; omega
    simp only [e]
    exact ht2
  · refine Agree_append.2 ⟨Agree_congr (fun d hd => ?_) ha1, Agree_cons.2
      ⟨?_, Agree_congr (fun d hd => ?_) ha2⟩⟩
    · have := hbefore d hd
      have h1 : d.addr ≠ t.addr := by omega
      simp [h1]
    · simp [hts, hrs, hmod, htf', htf]
    · have := hafter d hd
      have h1 : d.addr ≠ t.addr := by omega
      simp [h1]
  · rw [free_addrs_append, free_addrs_cons]
    simp only [if_true]
    refine Seg_append.2 ⟨some t.addr, ?_, rfl, ?_⟩
    · refine Seg_congr (fun x hx => ?_) hl1
      obtain ⟨d, hd, _, rfl⟩ := mem_free_addrs.1 hx
      have := hbefore d hd
      have h1 : d.addr ≠ t.addr := by omega
      simp [h1]
    · refine Seg_congr (fun x hx => ?_) ?_ (m := h.mem)
      · obtain ⟨d, hd, _, rfl⟩ := mem_free_addrs.1 hx
        have := hafter d hd
        have h1 : d.addr ≠ t.addr := by omega
        simp [h1]
      · simpa [hne] using hl3
  · rw [free_bytes_append, free_bytes_cons]
    rw [free_bytes_append, free_bytes_cons, free_bytes_cons, if_pos htf, if_pos hrf] at hav
    simp only [SIZEOF_CHUNK] at *
    simp at hav ⊢
    omega

theorem free_right_keep {h : heap} {Q1 P2 : List row} {t : row}
    (hr : Rep0 h (Q1 ++ t :: P2)) (hhead : ∀ x ∈ P2.head?, x.free = false) :
    free_right h t.addr (free_addrs P2).head? = h := by
  unfold free_right
  cases hc : (free_addrs P2).head? with
  | none => rfl
  | some cur =>
    obtain ⟨d, hd, hdf, rfl⟩ := mem_free_addrs.1 (List.mem_of_mem_head? hc)
    cases P2 with
    | nil => cases hd
    | cons f P2 =>
      have hff : f.free = false := hhead f rfl
      have hts := (Agree_cons.1 (Agree_append.1 hr.agree).2).1.1
      obtain ⟨_, hfa, ht3⟩ := Tiled_split hr.tiled
      have hne : ¬ t.addr + SIZEOF_CHUNK + (h.mem t.addr).size = d.addr := by
        rw [hts]
        rcases List.mem_cons.1 hd with rfl | hd
        · rw [hff] at hdf
          cases hdf
        · have := (Tiled_mem ht3 hd).1
          unfold SIZEOF_CHUNK at *
          omega
      simp only [hne, if_false]

/-! ## Release on a layout -/

theorem merge_left_snoc_free (Q1 : List row) (l b : row) (hl : l.free = true) :
    merge_left (Q1 ++ [l]) b =
      (Q1, { addr := l.addr, size := l.size + SIZEOF_CHUNK + b.size, free := true }) := by
  simp [merge_left, hl]

theorem merge_left_keep (P1 : List row) (b : row) (hlast : ∀ x ∈ P1.getLast?, x.free = false) :
    merge_left P1 b = (P1, { addr := b.addr, size := b.size, free := true }) := by
  unfold merge_left
  cases hg : P1.getLast? with
  | none => rfl
  | some l =>
    have := hlast l hg
    simp [this]

theorem merge_left_free (P1 : List row) (b : row) : (merge_left P1 b).2.free = true := by
  unfold merge_left
  cases P1.getLast? with
  | none => rfl
  | some l =>
    simp only
    split <;> rfl

theorem last_cases (P1 : List row) :
    (∀ x ∈ P1.getLast?, x.free = false) ∨ ∃ Q1 l, P1 = Q1 ++ [l] ∧ l.free = true := by
  rcases nil_or_snoc P1 with rfl | ⟨Q1, l, rfl⟩
  · left
    intro x hx
    cases hx
  · by_cases hl : l.free = true
    · exact Or.inr ⟨Q1, l, rfl, hl⟩
    · left
      intro x hx
      rw [List.getLast?_concat] at hx
      cases hx
      simpa using hl

theorem free_left_rep0 {h : heap} {P1 P2 : List row} {b : row} (hm : Mid h P1 b P2) :
    (free_left h b.addr (last_or none (free_addrs P1)) (free_addrs P2).head?).2 =
        (merge_left P1 b).2.addr ∧
      Rep0 (free_left h b.addr (last_or none (free_addrs P1)) (free_addrs P2).head?).1
        ((merge_left P1 b).1 ++ (merge_left P1 b).2 :: P2) := by
  rcases last_cases P1 with hlast | ⟨Q1, l, rfl, hl⟩
  · rw [merge_left_keep P1 b hlast]
    have hb := hm.flag
    obtain ⟨h1, h2⟩ := free_left_link hm hlast
    refine ⟨h1, ?_⟩
    have e : ({ addr := b.addr, size := b.size, free := true } : row) = b := by
      cases b
      simp only at hb
      simp [hb]
    simp only [e]
    exact h2
  · rw [merge_left_snoc_free Q1 l b hl]
    exact free_left_merge hm hl _

theorem free_right_rep0 {h : heap} {Q1 P2 : List row} {t : row}
    (hr : Rep0 h (Q1 ++ t :: P2)) (htf : t.free = true) :
    Rep0 (free_right h t.addr (free_addrs P2).head?) (Q1 ++ merge_right t P2) := by
  cases P2 with
  | nil =>
    rw [free_right_keep hr (by intro x hx; cases hx)]
    exact hr
  | cons r P2 =>
    by_cases hrf : r.free = true
    · simp only [merge_right, hrf, if_true]
      exact free_right_merge hr htf hrf
    · have hrf' : r.free = false := by simpa using hrf
      rw [free_right_keep hr (by intro x hx; cases hx; exact hrf')]
      simp only [merge_right, hrf']
      exact hr

theorem heap_free_rep0 {h : heap} {P1 P2 : List row} {b : row} {fuel : Nat}
    (hr : Rep0 h (P1 ++ b :: P2)) (hb : b.free = false) (hfuel : HEAP_SIZE ≤ fuel) :
    ∃ h', heap_free fuel h (some (b.addr + SIZEOF_CHUNK)) = some (free_status.freed, h') ∧
      Rep0 h' (free_rows P1 b P2) := by
  have hflag : (h.mem b.addr).free = false := by
    rw [((Agree_cons.1 (Agree_append.1 hr.agree).2).1).2]
    exact hb
  have hm := free_mark_mid hr hb
  have hw := hm.walk hfuel
  obtain ⟨h1, h2⟩ := free_left_rep0 hm
  have h3 := free_right_rep0 h2 (merge_left_free _ _)
  refine ⟨_, ?_, h3⟩
  unfold heap_free
  simp only [Nat.add_sub_cancel, hflag, Bool.false_eq_true, if_false]
  simp only [] at hw
  rw [hw]
  simp only []
  rw [h1]

theorem free_rows_noadj {P1 P2 : List row} {b : row} (h : NoAdjFree (P1 ++ b :: P2)) :
    NoAdjFree (free_rows P1 b P2) := by
  obtain ⟨h1, h2, -, -⟩ := noadj_mid.1 h
  -- the left part: its rows, and its last row is not free
  have hleft : NoAdjFree (merge_left P1 b).1 ∧
      ∀ x ∈ (merge_left P1 b).1.getLast?, x.free = false := by
    rcases last_cases P1 with hlast | ⟨Q1, l, rfl, hl⟩
    · rw [merge_left_keep P1 b hlast]
      exact ⟨h1, hlast⟩
    · rw [merge_left_snoc_free Q1 l b hl]
      obtain ⟨h5, h6⟩ := noadj_snoc.1 h1
      refine ⟨h5, fun x hx => ?_⟩
      have := h6 x hx
      simpa [hl] using this
  have htf := merge_left_free P1 b
  unfold free_rows
  generalize (merge_left P1 b).1 = Q1 at hleft
  generalize (merge_left P1 b).2 = t at htf
  obtain ⟨hq, hqlast⟩ := hleft
  have hlast' : ∀ (u : row), ∀ x ∈ Q1.getLast?, ¬ (x.free = true ∧ u.free = true) := by
    intro u x hx
    simp [hqlast x hx]
  cases P2 with
  | nil =>
    simp only [merge_right]
    exact noadj_snoc.2 ⟨hq, hlast' t⟩
  | cons r P2 =>
    obtain ⟨h7, h8⟩ := noadj_cons.1 h2
    by_cases hrf : r.free = true
    · simp only [merge_right, hrf, if_true]
      refine noadj_mid.2 ⟨hq, h7, hlast' _, ?_⟩
      intro y hy
      have := h8 y hy
      simpa [hrf] using this
    · have hrf' : r.free = false := by simpa using hrf
      simp only [merge_right, hrf']
      refine noadj_mid.2 ⟨hq, h2, hlast' _, ?_⟩
      intro y hy
      cases hy
      simp [hrf']

theorem heap_free_rep {h : heap} {P1 P2 : List row} {b : row} {fuel : Nat}
    (hr : Rep h (P1 ++ b :: P2)) (hb : b.free = false) (hfuel : HEAP_SIZE ≤ fuel) :
    ∃ h', heap_free fuel h (some (b.addr + SIZEOF_CHUNK)) = some (free_status.freed, h') ∧
      Rep h' (free_rows P1 b P2) := by
  obtain ⟨h', h1, h2⟩ := heap_free_rep0 hr.rep0 hb hfuel
  exact ⟨h', h1, h2, free_rows_noadj hr.noadj⟩

theorem heap_free_mono {h : heap} {ptr : Option Nat} {fuel : Nat} {r : free_status × heap}
    (k : Nat) (hr : heap_free fuel h ptr = some r) : heap_free (fuel + k) h ptr = some r := by
  unfold heap_free at hr ⊢
  cases ptr with
  | none => exact hr
  | some p =>
    simp only at hr ⊢
    split
    · rename_i hf
      simpa [hf] using hr
    · rename_i hf
      rw [if_neg hf] at hr
      cases hw : free_walk (free_mark h (p - SIZEOF_CHUNK)).mem (p - SIZEOF_CHUNK) fuel none
          (free_mark h (p - SIZEOF_CHUNK)).free_list_head with
      | none => simp [hw] at hr
      | some pc =>
        rw [free_walk_mono k hw]
        simpa [hw] using hr

/-! ## The free flags after a call -/

theorem free_mark_flag (h : heap) (blk x : Nat) :
    ((free_mark h blk).mem x).free = if x = blk then true else (h.mem x).free := by
  simp [free_mark]

theorem free_left_flag (h : heap) (blk : Nat) (prev cur : Option Nat) (x : Nat) :
    ((free_left h blk prev cur).1.mem x).free = (h.mem x).free := by
  unfold free_left
  cases prev with
  | none => simp [free_link]
  | some pv =>
    simp only
    split <;> simp [free_link]

theorem free_right_flag (h : heap) (blk : Nat) (cur : Option Nat) (x : Nat) :
    ((free_right h blk cur).mem x).free = (h.mem x).free := by
  unfold free_right
  cases cur with
  | none => rfl
  | some c =>
    simp only
    split <;> simp

theorem heap_free_flag {h h' : heap} {p fuel : Nat} {st : free_status}
    (hr : heap_free fuel h (some p) = some (st, h')) (x : Nat) :
    (h'.mem x).free = if x = p - SIZEOF_CHUNK then true else (h.mem x).free := by
  unfold heap_free at hr
  simp only at hr
  split at hr
  · rename_i hf
    simp only [Option.some.injEq, Prod.mk.injEq] at hr
    rw [← hr.2]
    split
    · rename_i hx
      rw [hx, hf]
    · rfl
  · split at hr
    · cases hr
    · simp only [Option.some.injEq, Prod.mk.injEq] at hr
      rw [← hr.2, free_right_flag, free_left_flag, free_mark_flag]

theorem alloc_take_flag (h : heap) (s : Nat) (prev : Option Nat) (a x : Nat) :
    ((alloc_take h s prev a).2.mem x).free =
      if x = a then false
      else if (h.mem a).size - s > SIZEOF_CHUNK ∧ x = a + SIZEOF_CHUNK + s then true
      else (h.mem x).free := by
  unfold alloc_take
  by_cases hsp : (h.mem a).size - s > SIZEOF_CHUNK
  · simp only [hsp, if_true, true_and]
    simp
  · simp only [hsp, if_false, false_and]
    simp

/-! ## The initial state -/

theorem heap_init_rep {raw : Nat → chunk} {h : heap} (hi : heap_init true (some raw) = some h) :
    Rep h [{ addr := 0, size := HEAP_SIZE - SIZEOF_CHUNK, free := true }] := by
  simp only [heap_init, if_true, Option.some.injEq] at hi
  subst hi
  refine ⟨⟨?_, ?_, ?_, ?_⟩, List.chain'_singleton _⟩
  · simp [Tiled, HEAP_SIZE, SIZEOF_CHUNK]
  · intro c hc
    rw [List.mem_singleton.1 hc]
    simp
  · simp [free_addrs, Seg]
  · simp [free_bytes, HEAP_SIZE, SIZEOF_CHUNK]

/-! ## One call on a state with a layout -/

theorem alloc_ptrs_alloc_rows (P1 P2 : List row) (c : row) (s : Nat) :
    alloc_ptrs (P1 ++ alloc_rows c s ++ P2) =
      alloc_ptrs P1 ++ (c.addr + SIZEOF_CHUNK) :: alloc_ptrs P2 := by
  unfold alloc_rows
  split <;> simp [alloc_ptrs]

theorem alloc_ptrs_mid_free (P1 P2 : List row) (c : row) (hc : c.free = true) :
    alloc_ptrs (P1 ++ c :: P2) = alloc_ptrs P1 ++ alloc_ptrs P2 := by
  simp [alloc_ptrs, hc]

theorem alloc_ptrs_mid_alloc (P1 P2 : List row) (b : row) (hb : b.free = false) :
    alloc_ptrs (P1 ++ b :: P2) = alloc_ptrs P1 ++ (b.addr + SIZEOF_CHUNK) :: alloc_ptrs P2 := by
  simp [alloc_ptrs, hb]

theorem alloc_ptrs_free_rows (P1 P2 : List row) (b : row) :
    alloc_ptrs (free_rows P1 b P2) = alloc_ptrs P1 ++ alloc_ptrs P2 := by
  have hleft : alloc_ptrs (merge_left P1 b).1 = alloc_ptrs P1 := by
    rcases last_cases P1 with hlast | ⟨Q1, l, rfl, hl⟩
    · rw [merge_left_keep P1 b hlast]
    · rw [merge_left_snoc_free Q1 l b hl]
      simp [alloc_ptrs, hl]
  have htf := merge_left_free P1 b
  unfold free_rows
  rw [alloc_ptrs_append, hleft]
  congr 1
  generalize (merge_left P1 b).2 = t at htf
  cases P2 with
  | nil => simp [merge_right, alloc_ptrs, htf]
  | cons r P2 =>
    by_cases hrf : r.free = true
    · simp [merge_right, alloc_ptrs, hrf]
    · simp [merge_right, alloc_ptrs, hrf, htf]

theorem alloc_ptrs_split {P : List row} {p : Nat} (hp : p ∈ alloc_ptrs P) :
    ∃ P1 b P2, P = P1 ++ b :: P2 ∧ b.free = false ∧ b.addr + SIZEOF_CHUNK = p := by
  obtain ⟨b, hb, hbf, hbp⟩ := mem_alloc_ptrs.1 hp
  obtain ⟨P1, P2, rfl⟩ := List.append_of_mem hb
  exact ⟨P1, b, P2, rfl, hbf, hbp⟩

theorem heap_alloc_step {h h' : heap} {P : List row} {n fuel : Nat} {res : Option Nat}
    (hr : Rep h P) (hcall : heap_alloc fuel h n = some (res, h')) :
    (res = none ∧ h' = h ∧ (n = 0 ∨ ∀ c ∈ P, c.free = true → c.size < align_up n)) ∨
      ∃ P1 c P2, P = P1 ++ c :: P2 ∧ n ≠ 0 ∧ c.free = true ∧ align_up n ≤ c.size ∧
        (∀ d ∈ P1, d.free = true → d.size < align_up n) ∧
        res = some (c.addr + SIZEOF_CHUNK) ∧
        h' = (alloc_take h (align_up n) (last_or none (free_addrs P1)) c.addr).2 ∧
        Rep h' (P1 ++ alloc_rows c (align_up n) ++ P2) := by
  have hbig := heap_alloc_mono HEAP_SIZE hcall
  by_cases hn : n = 0
  · left
    subst hn
    simp only [heap_alloc, if_true, Option.some.injEq, Prod.mk.injEq] at hcall
    exact ⟨hcall.1.symm, hcall.2.symm, Or.inl rfl⟩
  · rcases first_fit_cases P (align_up n) with hsm | ⟨P1, c, P2, rfl, hc, hfit, hsm⟩
    · left
      rw [heap_alloc_miss hr.rep0 hsm (Nat.le_add_left _ _)] at hbig
      simp only [Option.some.injEq, Prod.mk.injEq] at hbig
      exact ⟨hbig.1.symm, hbig.2.symm, Or.inr hsm⟩
    · right
      rw [heap_alloc_hit hr.rep0 hn hc hfit hsm (Nat.le_add_left _ _)] at hbig
      have e := Option.some.inj hbig
      have e1 : res = some (c.addr + SIZEOF_CHUNK) := (congrArg Prod.fst e).symm
      have e2 : h' = (alloc_take h (align_up n) (last_or none (free_addrs P1)) c.addr).2 :=
        (congrArg Prod.snd e).symm
      refine ⟨P1, c, P2, rfl, hn, hc, hfit, hsm, e1, e2, ?_⟩
      rw [e2]
      exact alloc_take_rep hr hc hfit

theorem heap_alloc_total {h : heap} {P : List row} (hr : Rep h P) (n : Nat) {fuel : Nat}
    (hfuel : HEAP_SIZE ≤ fuel) : ∃ res h', heap_alloc fuel h n = some (res, h') := by
  by_cases hn : n = 0
  · exact ⟨none, h, by simp [heap_alloc, hn]⟩
  · rcases first_fit_cases P (align_up n) with hsm | ⟨P1, c, P2, rfl, hc, hfit, hsm⟩
    · exact ⟨none, h, heap_alloc_miss hr.rep0 hsm hfuel⟩
    · exact ⟨_, _, heap_alloc_hit hr.rep0 hn hc hfit hsm hfuel⟩

theorem heap_free_step {h h' : heap} {P : List row} {p fuel : Nat} {st : free_status}
    (hr : Rep h P) (hp : p ∈ alloc_ptrs P)
    (hcall : heap_free fuel h (some p) = some (st, h')) :
    ∃ P1 b P2, P = P1 ++ b :: P2 ∧ b.free = false ∧ b.addr + SIZEOF_CHUNK = p ∧
      st = free_status.freed ∧ Rep h' (free_rows P1 b P2) := by
  obtain ⟨P1, b, P2, rfl, hb, rfl⟩ := alloc_ptrs_split hp
  have hbig := heap_free_mono HEAP_SIZE hcall
  obtain ⟨h'', h1, h2⟩ := @heap_free_rep h P1 P2 b (fuel + HEAP_SIZE) hr hb (Nat.le_add_left _ _)
  rw [h1] at hbig
  simp only [Option.some.injEq, Prod.mk.injEq] at hbig
  refine ⟨P1, b, P2, rfl, hb, rfl, hbig.1.symm, ?_⟩
  rw [← hbig.2]
  exact h2

/-! ## Reachable states -/

theorem Rep.allocated {h : heap} {P : List row} {p : Nat} (hr : Rep h P)
    (hp : ∃ P', print_heap_state HEAP_SIZE h = some P' ∧ p ∈ alloc_ptrs P') :
    p ∈ alloc_ptrs P := by
  obtain ⟨P', hw, hp'⟩ := hp
  rw [hr.rep0.print_eq (Nat.le_refl _)] at hw
  rw [Option.some.inj hw]
  exact hp'

/-- The effect of a valid call of `heap_free` on the layout: nothing for `NULL`, else the
release of an allocated row. -/
theorem heap_free_valid {h h' : heap} {P : List row} {fuel : Nat}
    {ptr : Option Nat} {st : free_status} (hr : Rep h P)
    (hptr : ∀ p ∈ ptr, ∃ P', print_heap_state HEAP_SIZE h = some P' ∧ p ∈ alloc_ptrs P')
    (hcall : heap_free fuel h ptr = some (st, h')) :
    h' = h ∨ ∃ P1 b P2, P = P1 ++ b :: P2 ∧ b.free = false ∧
      ptr = some (b.addr + SIZEOF_CHUNK) ∧ Rep h' (free_rows P1 b P2) := by
  cases ptr with
  | none =>
    simp only [heap_free, Option.some.injEq, Prod.mk.injEq] at hcall
    exact Or.inl hcall.2.symm
  | some p =>
    have hp : p ∈ alloc_ptrs P := hr.allocated (hptr p rfl)
    obtain ⟨P1, b, P2, hP, hb, hbp, _, hr'⟩ := heap_free_step hr hp hcall
    exact Or.inr ⟨P1, b, P2, hP, hb, by rw [hbp], hr'⟩

theorem Reach.rep {ps : List Nat} {h : heap} (hreach : Reach ps h) : ∃ P, Rep h P := by
  induction hreach with
  | init hi => exact ⟨_, heap_init_rep hi⟩
  | alloc _ _ hcall ih =>
    obtain ⟨P, hr⟩ := ih
    rcases heap_alloc_step hr hcall with ⟨_, rfl, _⟩ | ⟨P1, c, P2, _, _, _, _, _, _, _, hr'⟩
    · exact ⟨P, hr⟩
    · exact ⟨_, hr'⟩
  | free _ hptr hcall ih =>
    obtain ⟨P, hr⟩ := ih
    rcases heap_free_valid hr hptr hcall with rfl | ⟨P1, b, P2, _, _, _, hr'⟩
    · exact ⟨P, hr⟩
    · exact ⟨_, hr'⟩

/-! ## Sequences of calls -/

theorem fresh_heap_init : heap_init true (some zero_arena) = some fresh_heap := rfl

theorem fresh_heap_reach : Reach [] fresh_heap := Reach.init fresh_heap_init

theorem heap_alloc_ptrs {h h' : heap} {P : List row} {n fuel : Nat} {res : Option Nat}
    (hr : Rep h P) (hcall : heap_alloc fuel h n = some (res, h')) :
    ∃ P', Rep h' P' ∧ (alloc_ptrs P').Perm (res.toList ++ alloc_ptrs P) := by
  rcases heap_alloc_step hr hcall with ⟨rfl, rfl, _⟩ |
    ⟨P1, c, P2, rfl, _, hc, _, _, rfl, _, hr'⟩
  · exact ⟨P, hr, List.Perm.refl _⟩
  · refine ⟨_, hr', ?_⟩
    rw [alloc_ptrs_alloc_rows, alloc_ptrs_mid_free P1 P2 c hc]
    exact List.perm_middle

theorem alloc_all_rep {fuel : Nat} (hfuel : HEAP_SIZE ≤ fuel) (sizes : List Nat) :
    ∀ (h : heap) (P : List row), Rep h P →
      ∃ ps h1 P1, alloc_all fuel h sizes = some (ps, h1) ∧ Rep h1 P1 ∧
        (alloc_ptrs P1).Perm (ps ++ alloc_ptrs P) := by
  induction sizes with
  | nil =>
    intro h P hr
    exact ⟨[], h, P, rfl, hr, List.Perm.refl _⟩
  | cons n ns ih =>
    intro h P hr
    obtain ⟨res, h', hcall⟩ := heap_alloc_total hr n hfuel
    obtain ⟨P', hr', hperm⟩ := heap_alloc_ptrs hr hcall
    obtain ⟨ps, h1, P1, hall, hr1, hperm1⟩ := ih h' P' hr'
    refine ⟨res.toList ++ ps, h1, P1, ?_, hr1, ?_⟩
    · simp only [alloc_all, hcall, hall]
    · refine hperm1.trans ?_
      refine (List.Perm.append_left ps hperm).trans ?_
      rw [← List.append_assoc]
      exact List.Perm.append_right _ List.perm_append_comm

theorem free_all_rep {fuel : Nat} (hfuel : HEAP_SIZE ≤ fuel) (order : List Nat) :
    ∀ (h : heap) (P : List row), Rep h P → order.Perm (alloc_ptrs P) →
      ∃ h2 P2, free_all fuel h order = some h2 ∧ Rep h2 P2 ∧ alloc_ptrs P2 = [] := by
  induction order with
  | nil =>
    intro h P hr hperm
    exact ⟨h, P, rfl, hr, (List.Perm.nil_eq hperm).symm⟩
  | cons p rest ih =>
    intro h P hr hperm
    have hp : p ∈ alloc_ptrs P := hperm.subset (List.mem_cons_self p rest)
    obtain ⟨P1, b, P2, rfl, hb, rfl⟩ := alloc_ptrs_split hp
    obtain ⟨h', hcall, hr'⟩ := heap_free_rep hr hb hfuel
    have hperm' : rest.Perm (alloc_ptrs (free_rows P1 b P2)) := by
      rw [alloc_ptrs_free_rows]
      rw [alloc_ptrs_mid_alloc P1 P2 b hb] at hperm
      exact (hperm.trans List.perm_middle).cons_inv
    obtain ⟨h2, Q, hall, hr2, hq⟩ := ih h' _ hr' hperm'
    refine ⟨h2, Q, ?_, hr2, hq⟩
    simp only [free_all, hcall, hall]

theorem all_free_single {h : heap} {P : List row} (hr : Rep h P) (hnone : alloc_ptrs P = []) :
    P = [{ addr := 0, size := HEAP_SIZE - SIZEOF_CHUNK, free := true }] := by
  have hfree : ∀ c ∈ P, c.free = true := by
    intro c hc
    by_contra hcf
    have : c.addr + SIZEOF_CHUNK ∈ alloc_ptrs P :=
      mem_alloc_ptrs.2 ⟨c, hc, by simpa using hcf, rfl⟩
    rw [hnone] at this
    cases this
  have ht := hr.rep0.tiled
  cases P with
  | nil => simp [Tiled, HEAP_SIZE] at ht
  | cons c P =>
    cases P with
    | nil =>
      obtain ⟨h1, h2⟩ := ht
      rw [Tiled_nil] at h2
      have hcf := hfree c (List.mem_singleton_self c)
      cases c
      simp only [SIZEOF_CHUNK, HEAP_SIZE] at *
      subst h1
      subst hcf
      congr
      omega
    | cons d P =>
      exfalso
      have := (noadj_cons.1 hr.noadj).2 d rfl
      exact this ⟨hfree c (by simp), hfree d (by simp)⟩

/-! ## Concrete states -/

theorem one_alloc_call : heap_alloc 4096 fresh_heap 100 = some (some 16, one_alloc) := rfl

theorem one_alloc_reach : Reach [16] one_alloc :=
  Reach.alloc fresh_heap_reach (by decide) one_alloc_call

theorem one_alloc_walk :
    print_heap_state 4096 one_alloc =
      some [{ addr := 0, size := 104, free := false }, { addr := 120, size := 3960, free := true }] := by
  rfl

theorem alloc_loop_null {h h' : heap} {s fuel : Nat} {prev cur : Option Nat}
    (hcall : alloc_loop h s fuel prev cur = some (none, h')) : h' = h := by
  induction fuel generalizing prev cur with
  | zero => simp [alloc_loop] at hcall
  | succ f ih =>
    cases cur with
    | none =>
      simp only [alloc_loop, Option.some.injEq, Prod.mk.injEq] at hcall
      exact hcall.2.symm
    | some c =>
      simp only [alloc_loop] at hcall
      split at hcall
      · have := congrArg Prod.fst (Option.some.inj hcall)
        rw [alloc_take_ptr] at this
        cases this
      · exact ih hcall

/-! ## The claims -/

/-- C1 (round trip): on a freshly initialised arena every sequence of `heap_alloc` calls runs
to completion, and releasing each pointer it returned once, in any order, leaves a state whose
physical walk is the single free chunk of payload size `HEAP_SIZE - sizeof(chunk)` at offset 0,
with `avail` equal to `HEAP_SIZE`. -/
theorem C1_round_trip (raw : Nat → chunk) (h0 : heap) (sizes : List Nat) (fuel : Nat)
    (hinit : heap_init true (some raw) = some h0) (hfuel : HEAP_SIZE ≤ fuel) :
    ∃ ps h1, alloc_all fuel h0 sizes = some (ps, h1) ∧
      ∀ order : List Nat, order.Perm ps →
        ∃ h2, free_all fuel h1 order = some h2 ∧
          print_heap_state fuel h2 =
            some [{ addr := 0, size := HEAP_SIZE - SIZEOF_CHUNK, free := true }] ∧
          h2.avail = HEAP_SIZE := by
  obtain ⟨ps, h1, P1, hall, hr1, hperm⟩ := alloc_all_rep hfuel sizes h0 _ (heap_init_rep hinit)
  refine ⟨ps, h1, hall, fun order hord => ?_⟩
  have hperm' : order.Perm (alloc_ptrs P1) := by
    refine hord.trans ?_
    simpa [alloc_ptrs] using hperm.symm
  obtain ⟨h2, P2, hfree, hr2, hnone⟩ := free_all_rep hfuel order h1 P1 hr1 hperm'
  have hP2 := all_free_single hr2 hnone
  subst hP2
  refine ⟨h2, hfree, hr2.rep0.print_eq hfuel, ?_⟩
  rw [hr2.rep0.avail_eq]
  simp [free_bytes, HEAP_SIZE, SIZEOF_CHUNK]

/-- Witness of C1: the three allocations of the driver on the fresh heap. -/
theorem C1_round_trip_witness :
    heap_init true (some zero_arena) = some fresh_heap ∧ HEAP_SIZE ≤ 4096 ∧
    ∃ ps h1, alloc_all 4096 fresh_heap [100, 500, 200] = some (ps, h1) ∧
      ∀ order : List Nat, order.Perm ps →
        ∃ h2, free_all 4096 h1 order = some h2 ∧
          print_heap_state 4096 h2 =
            some [{ addr := 0, size := HEAP_SIZE - SIZEOF_CHUNK, free := true }] ∧
          h2.avail = HEAP_SIZE :=
  ⟨rfl, Nat.le_refl _, C1_round_trip zero_arena fresh_heap [100, 500, 200] 4096 rfl (Nat.le_refl _)⟩

/-- C2 (double free): in a reachable state, releasing a currently allocated pointer `p`
succeeds, and every further `heap_free(p)` right after it reports the block as already free
and returns the very same state: `avail`, `free_list_head` and all headers are untouched. -/
theorem C2_double_free (ps : List Nat) (h : heap) (P : List row) (p fuel : Nat)
    (hreach : Reach ps h) (hfuel : HEAP_SIZE ≤ fuel)
    (hwalk : print_heap_state fuel h = some P) (hp : p ∈ alloc_ptrs P) :
    ∃ h1, heap_free fuel h (some p) = some (free_status.freed, h1) ∧
      ∀ fuel2, heap_free fuel2 h1 (some p) = some (free_status.already_free, h1) := by
  obtain ⟨P0, hr⟩ := hreach.rep
  have hP : P = P0 := by
    rw [hr.rep0.print_eq hfuel] at hwalk
    exact (Option.some.inj hwalk).symm
  subst hP
  obtain ⟨P1, b, P2, rfl, hb, rfl⟩ := alloc_ptrs_split hp
  obtain ⟨h1, hcall, _⟩ := heap_free_rep hr hb hfuel
  refine ⟨h1, hcall, fun fuel2 => ?_⟩
  have hflag := heap_free_flag hcall (b.addr + SIZEOF_CHUNK - SIZEOF_CHUNK)
  rw [if_pos rfl] at hflag
  simp only [heap_free, hflag, if_true]

/-- Witness of C2: the block returned by `heap_alloc(100)` on the fresh heap. -/
theorem C2_double_free_witness :
    Reach [16] one_alloc ∧ HEAP_SIZE ≤ 4096 ∧
    print_heap_state 4096 one_alloc =
      some [{ addr := 0, size := 104, free := false }, { addr := 120, size := 3960, free := true }] ∧
    16 ∈ alloc_ptrs
      [{ addr := 0, size := 104, free := false }, { addr := 120, size := 3960, free := true }] ∧
    ∃ h1, heap_free 4096 one_alloc (some 16) = some (free_status.freed, h1) ∧
      ∀ fuel2, heap_free fuel2 h1 (some 16) = some (free_status.already_free, h1) :=
  ⟨one_alloc_reach, Nat.le_refl _, one_alloc_walk, by decide,
    C2_double_free [16] one_alloc _ 16 4096 one_alloc_reach (Nat.le_refl _) one_alloc_walk
      (by decide)⟩

/-- C3 (failure atomicity of alloc): whenever `heap_alloc` returns `NULL`, for any state and
any requested size, the state it leaves is the state it was given. -/
theorem C3_alloc_failure_atomic (fuel : Nat) (h : heap) (n : Nat) (h' : heap)
    (hcall : heap_alloc fuel h n = some (none, h')) : h' = h := by
  unfold heap_alloc at hcall
  split at hcall
  · simp only [Option.some.injEq, Prod.mk.injEq, true_and] at hcall
    exact hcall.symm
  · exact alloc_loop_null hcall

/-- Witness of C3: a request of 5000 bytes on the fresh heap finds no chunk. -/
theorem C3_alloc_failure_atomic_witness :
    heap_alloc 2 fresh_heap 5000 = some (none, fresh_heap) ∧ fresh_heap = fresh_heap :=
  ⟨rfl, C3_alloc_failure_atomic 2 fresh_heap 5000 fresh_heap rfl⟩

theorem align_up_eq {n : Nat} (hn : n + SIZEOF_PTR ≤ UINT32_MOD) :
    align_up n = (n + 7) / 8 * 8 := by
  unfold align_up
  simp only [SIZEOF_PTR, UINT32_MOD] at *
  split <;> omega

theorem free_bytes_eq_sum {m : Nat → chunk} {P : List row} (ha : Agree m P) :
    free_bytes P = ((free_addrs P).map (fun a => (m a).size + SIZEOF_CHUNK)).sum := by
  induction P with
  | nil => rfl
  | cons c P ih =>
    obtain ⟨⟨hs, _⟩, ha'⟩ := Agree_cons.1 ha
    rw [free_bytes_cons, free_addrs_cons]
    split
    · rw [List.map_cons, List.sum_cons, hs, ih ha']
    · exact ih ha'

theorem hole_heap_reach : Reach [656, 136, 16] hole_heap := by
  have r2 : Reach [136, 16] (alloc_take one_alloc 504 none 120).2 :=
    @Reach.alloc [16] one_alloc _ 4096 500 (some 136) one_alloc_reach (by decide) rfl
  have r3 : Reach [656, 136, 16]
      (alloc_take (alloc_take one_alloc 504 none 120).2 200 none 640).2 :=
    @Reach.alloc [136, 16] _ _ 4096 200 (some 656) r2 (by decide) rfl
  exact @Reach.free [656, 136, 16] _ _ 4096 (some 136) free_status.freed r3
    (by intro p hp; cases hp; exact ⟨_, rfl, by decide⟩) rfl

/-- C4, the failing call: a request of `2^32 - 1` bytes on the fresh heap is rounded to `0`
by the wrap of `uint32_t`, and `heap_alloc` returns a pointer to a chunk of payload size `0`. -/
theorem C4_rounding_wraps :
    align_up 4294967295 = 0 ∧
    ∃ h', heap_alloc 2 fresh_heap 4294967295 = some (some 16, h') ∧
      (h'.mem 0).size = 0 ∧ (h'.mem 0).free = false ∧
      print_heap_state 4096 h' =
        some [{ addr := 0, size := 0, free := false }, { addr := 16, size := 4064, free := true }] :=
  ⟨rfl, _, rfl, rfl, rfl, rfl⟩

/-- C5 (first fit): in a reachable state, for a request `0 < n ≤ HEAP_SIZE` rounded up to
`r = (n + 7) / 8 * 8`, `heap_alloc` returns; it returns `NULL` exactly when no node of the free
list has size at least `r`; and a pointer it returns is the payload of the first node of the
free list with size at least `r`, which is also the lowest such node. -/
theorem C5_first_fit (ps : List Nat) (h : heap) (F : List Nat) (n fuel : Nat)
    (hreach : Reach ps h) (hfuel : HEAP_SIZE ≤ fuel) (hpos : 0 < n) (hle : n ≤ HEAP_SIZE)
    (hlist : free_list fuel h = some F) :
    ∃ res h', heap_alloc fuel h n = some (res, h') ∧
      (res = none ↔ ∀ a ∈ F, (h.mem a).size < (n + 7) / 8 * 8) ∧
      ∀ p, res = some p →
        ∃ F1 a F2, F = F1 ++ a :: F2 ∧ p = a + SIZEOF_CHUNK ∧
          (n + 7) / 8 * 8 ≤ (h.mem a).size ∧
          (∀ x ∈ F1, (h.mem x).size < (n + 7) / 8 * 8) ∧
          (∀ x ∈ F, (n + 7) / 8 * 8 ≤ (h.mem x).size → a ≤ x) := by
  obtain ⟨P, hr⟩ := hreach.rep
  have hF : F = free_addrs P := by
    rw [hr.rep0.free_list_eq hfuel] at hlist
    exact (Option.some.inj hlist).symm
  subst hF
  have hal : align_up n = (n + 7) / 8 * 8 :=
    align_up_eq (by simp only [SIZEOF_PTR, UINT32_MOD, HEAP_SIZE] at *; omega)
  rw [← hal]
  obtain ⟨res, h', hcall⟩ := heap_alloc_total hr n hfuel
  refine ⟨res, h', hcall, ?_⟩
  rcases heap_alloc_step hr hcall with ⟨rfl, _, h0 | hsm⟩ |
    ⟨P1, c, P2, rfl, _, hc, hfit, hsm, rfl, _, _⟩
  · omega
  · refine ⟨⟨fun _ => free_addrs_small hr.rep0.agree hsm, fun _ => rfl⟩, ?_⟩
    intro p hp
    cases hp
  · have ha := Agree_append.1 hr.rep0.agree
    have hcs := (Agree_cons.1 ha.2).1.1
    have hF : free_addrs (P1 ++ c :: P2) = free_addrs P1 ++ c.addr :: free_addrs P2 := by
      rw [free_addrs_append, free_addrs_cons, if_pos hc]
    have hsm1 := free_addrs_small ha.1 hsm
    constructor
    · constructor
      · intro hn
        cases hn
      · intro hall
        have := hall c.addr (by rw [hF]; simp)
        omega
    · intro p hp
      cases hp
      refine ⟨free_addrs P1, c.addr, free_addrs P2, hF, rfl, by omega, hsm1, ?_⟩
      intro x hx hxfit
      rw [hF] at hx
      rcases List.mem_append.1 hx with h1 | h1
      · have := hsm1 x h1
        omega
      · rcases List.mem_cons.1 h1 with h2 | h2
        · omega
        · obtain ⟨d, hd, _, rfl⟩ := mem_free_addrs.1 h2
          have := Tiled_after hr.rep0.tiled hd
          omega

/-- Witness of C5: a request of 600 bytes in the driver's state with a hole of 504 bytes. -/
theorem C5_first_fit_witness :
    Reach [656, 136, 16] hole_heap ∧ HEAP_SIZE ≤ 4096 ∧ 0 < 600 ∧ 600 ≤ HEAP_SIZE ∧
    free_list 4096 hole_heap = some [120, 856] ∧
    ∃ res h', heap_alloc 4096 hole_heap 600 = some (res, h') ∧
      (res = none ↔ ∀ a ∈ [120, 856], (hole_heap.mem a).size < (600 + 7) / 8 * 8) ∧
      ∀ p, res = some p →
        ∃ F1 a F2, [120, 856] = F1 ++ a :: F2 ∧ p = a + SIZEOF_CHUNK ∧
          (600 + 7) / 8 * 8 ≤ (hole_heap.mem a).size ∧
          (∀ x ∈ F1, (hole_heap.mem x).size < (600 + 7) / 8 * 8) ∧
          (∀ x ∈ [120, 856], (600 + 7) / 8 * 8 ≤ (hole_heap.mem x).size → a ≤ x) :=
  ⟨hole_heap_reach, Nat.le_refl _, by decide, by decide, rfl,
    C5_first_fit [656, 136, 16] hole_heap [120, 856] 600 4096 hole_heap_reach (Nat.le_refl _)
      (by decide) (by decide) rfl⟩

/-- Address order under valid calls: in every reachable state the free list, read from
`free_list_head` along `next_free`, ends, and its offsets are strictly ascending. -/
theorem free_list_ascending {ps : List Nat} {h : heap} {fuel : Nat}
    (hreach : Reach ps h) (hfuel : HEAP_SIZE ≤ fuel) :
    ∃ F, free_list fuel h = some F ∧ F.Pairwise (fun x y => x < y) := by
  obtain ⟨P, hr⟩ := hreach.rep
  exact ⟨free_addrs P, hr.rep0.free_list_eq hfuel, Tiled_free_addrs_sorted hr.rep0.tiled⟩

/-- C7 (accounting of `avail`): in every reachable state `avail` is the sum, over the nodes of
the free list, of the node's size plus `sizeof(chunk)`. -/
theorem C7_avail_accounting (ps : List Nat) (h : heap) (fuel : Nat)
    (hreach : Reach ps h) (hfuel : HEAP_SIZE ≤ fuel) :
    ∃ F, free_list fuel h = some F ∧
      h.avail = (F.map (fun a => (h.mem a).size + SIZEOF_CHUNK)).sum := by
  obtain ⟨P, hr⟩ := hreach.rep
  refine ⟨free_addrs P, hr.rep0.free_list_eq hfuel, ?_⟩
  rw [hr.rep0.avail_eq]
  exact free_bytes_eq_sum hr.rep0.agree

/-- Witness of C7: the driver's state with two free chunks. -/
theorem C7_avail_accounting_witness :
    Reach [656, 136, 16] hole_heap ∧ HEAP_SIZE ≤ 4096 ∧
    ∃ F, free_list 4096 hole_heap = some F ∧
      hole_heap.avail = (F.map (fun a => (hole_heap.mem a).size + SIZEOF_CHUNK)).sum :=
  ⟨hole_heap_reach, Nat.le_refl _,
    C7_avail_accounting [656, 136, 16] hole_heap 4096 hole_heap_reach (Nat.le_refl _)⟩

/-- What a successful `heap_alloc` did to the layout: the row it took, the rows on both sides,
and the layout of the new state. -/
theorem heap_alloc_took {h h' : heap} {P : List row} {n a fuel : Nat} (hr : Rep h P)
    (hcall : heap_alloc fuel h n = some (some (a + SIZEOF_CHUNK), h')) :
    ∃ P1 P2, P = P1 ++ { addr := a, size := (h.mem a).size, free := true } :: P2 ∧
      align_up n ≤ (h.mem a).size ∧
      Rep h' (P1 ++ alloc_rows { addr := a, size := (h.mem a).size, free := true } (align_up n)
        ++ P2) := by
  rcases heap_alloc_step hr hcall with ⟨hn, _, _⟩ | ⟨P1, c, P2, rfl, _, hc, hfit, _, hres, _, hr'⟩
  · cases hn
  · have hca : c.addr = a := by
      have := Option.some.inj hres
      omega
    have hcs := (Agree_cons.1 (Agree_append.1 hr.rep0.agree).2).1.1
    have hce : c = { addr := a, size := (h.mem a).size, free := true } := by
      rw [← hca, hcs, ← hc]
    rw [← hce]
    refine ⟨P1, P2, rfl, ?_, hr'⟩
    rw [← hca, hcs]
    exact hfit

/-- C8 (split): when `heap_alloc` takes the free chunk at offset `a` of size `c` for the
rounded request `s` and `c - s > sizeof(chunk)`, the chunk at `a` becomes an allocated chunk of
size `s`, directly followed by a new free chunk at `a + sizeof(chunk) + s` of size
`c - s - sizeof(chunk)`; all other chunks are as before, the new chunk stands in the free list
where `a` stood, and the two chunks cover the bytes of the old one. -/
theorem C8_split (ps : List Nat) (h h' : heap) (P : List row) (F : List Nat)
    (n a c s fuel : Nat) (hreach : Reach ps h) (hfuel : HEAP_SIZE ≤ fuel)
    (hwalk : print_heap_state fuel h = some P) (hlist : free_list fuel h = some F)
    (hcall : heap_alloc fuel h n = some (some (a + SIZEOF_CHUNK), h'))
    (hc : (h.mem a).size = c) (hs : align_up n = s) (hsplit : c - s > SIZEOF_CHUNK) :
    ∃ P1 P2 F1 F2,
      P = P1 ++ { addr := a, size := c, free := true } :: P2 ∧
      F = F1 ++ a :: F2 ∧
      print_heap_state fuel h' =
        some (P1 ++ { addr := a, size := s, free := false } ::
          { addr := a + SIZEOF_CHUNK + s, size := c - s - SIZEOF_CHUNK, free := true } :: P2) ∧
      free_list fuel h' = some (F1 ++ (a + SIZEOF_CHUNK + s) :: F2) ∧
      (SIZEOF_CHUNK + s) + (SIZEOF_CHUNK + (c - s - SIZEOF_CHUNK)) = SIZEOF_CHUNK + c := by
  obtain ⟨P0, hr⟩ := hreach.rep
  have hP : P = P0 := by
    rw [hr.rep0.print_eq hfuel] at hwalk
    exact (Option.some.inj hwalk).symm
  subst hP
  have hF : F = free_addrs P := by
    rw [hr.rep0.free_list_eq hfuel] at hlist
    exact (Option.some.inj hlist).symm
  subst hF
  obtain ⟨P1, P2, hPeq, _, hr'⟩ := heap_alloc_took hr hcall
  simp only [hc, hs] at hr' hPeq
  simp only [alloc_rows, hsplit, if_true] at hr'
  refine ⟨P1, P2, free_addrs P1, free_addrs P2, hPeq, ?_, ?_, ?_, ?_⟩
  · rw [hPeq, free_addrs_append, free_addrs_cons]
    rfl
  · rw [hr'.rep0.print_eq hfuel]
    simp
  · rw [hr'.rep0.free_list_eq hfuel]
    simp [free_addrs]
  · omega

/-- Witness of C8: `heap_alloc(100)` on the fresh heap. -/
theorem C8_split_witness :
    Reach [] fresh_heap ∧ HEAP_SIZE ≤ 4096 ∧
    print_heap_state 4096 fresh_heap = some [{ addr := 0, size := 4080, free := true }] ∧
    free_list 4096 fresh_heap = some [0] ∧
    heap_alloc 4096 fresh_heap 100 = some (some (0 + SIZEOF_CHUNK), one_alloc) ∧
    (fresh_heap.mem 0).size = 4080 ∧ align_up 100 = 104 ∧ 4080 - 104 > SIZEOF_CHUNK ∧
    ∃ P1 P2 F1 F2,
      [{ addr := 0, size := 4080, free := true }] =
        P1 ++ ({ addr := 0, size := 4080, free := true } : row) :: P2 ∧
      [0] = F1 ++ 0 :: F2 ∧
      print_heap_state 4096 one_alloc =
        some (P1 ++ { addr := 0, size := 104, free := false } ::
          { addr := 0 + SIZEOF_CHUNK + 104, size := 4080 - 104 - SIZEOF_CHUNK, free := true } ::
          P2) ∧
      free_list 4096 one_alloc = some (F1 ++ (0 + SIZEOF_CHUNK + 104) :: F2) ∧
      (SIZEOF_CHUNK + 104) + (SIZEOF_CHUNK + (4080 - 104 - SIZEOF_CHUNK)) = SIZEOF_CHUNK + 4080 :=
  ⟨fresh_heap_reach, Nat.le_refl _, rfl, rfl, rfl, rfl, rfl, by decide,
    C8_split [] fresh_heap one_alloc _ [0] 100 0 4080 104 4096 fresh_heap_reach (Nat.le_refl _)
      rfl rfl rfl rfl rfl (by decide)⟩

/-- C9 (no split): when `heap_alloc` takes the free chunk at offset `a` of size `c` for the
rounded request `s` and `c - s ≤ sizeof(chunk)`, then `s ≤ c`, the chunk becomes allocated and
keeps size `c`, the physical walk has the same chunks at the same places (none is added), the
free list loses the node `a` and keeps the others in order, and `avail` drops by
`c + sizeof(chunk)`. -/
theorem C9_no_split (ps : List Nat) (h h' : heap) (P : List row) (F : List Nat)
    (n a c s fuel : Nat) (hreach : Reach ps h) (hfuel : HEAP_SIZE ≤ fuel)
    (hwalk : print_heap_state fuel h = some P) (hlist : free_list fuel h = some F)
    (hcall : heap_alloc fuel h n = some (some (a + SIZEOF_CHUNK), h'))
    (hc : (h.mem a).size = c) (hs : align_up n = s) (hwhole : c - s ≤ SIZEOF_CHUNK) :
    s ≤ c ∧ ∃ P1 P2 F1 F2,
      P = P1 ++ { addr := a, size := c, free := true } :: P2 ∧
      F = F1 ++ a :: F2 ∧
      print_heap_state fuel h' = some (P1 ++ { addr := a, size := c, free := false } :: P2) ∧
      (P1 ++ ({ addr := a, size := c, free := false } : row) :: P2).length = P.length ∧
      free_list fuel h' = some (F1 ++ F2) ∧
      h'.avail + (c + SIZEOF_CHUNK) = h.avail := by
  obtain ⟨P0, hr⟩ := hreach.rep
  have hP : P = P0 := by
    rw [hr.rep0.print_eq hfuel] at hwalk
    exact (Option.some.inj hwalk).symm
  subst hP
  have hF : F = free_addrs P := by
    rw [hr.rep0.free_list_eq hfuel] at hlist
    exact (Option.some.inj hlist).symm
  subst hF
  obtain ⟨P1, P2, hPeq, hfit, hr'⟩ := heap_alloc_took hr hcall
  simp only [hc, hs] at hr' hPeq hfit
  have hns : ¬ c - s > SIZEOF_CHUNK := by omega
  simp only [alloc_rows, hns, if_false] at hr'
  refine ⟨hfit, P1, P2, free_addrs P1, free_addrs P2, hPeq, ?_, ?_, ?_, ?_, ?_⟩
  · rw [hPeq, free_addrs_append, free_addrs_cons]
    rfl
  · rw [hr'.rep0.print_eq hfuel]
    simp
  · rw [hPeq]
    simp
  · rw [hr'.rep0.free_list_eq hfuel]
    simp [free_addrs]
  · rw [hr'.rep0.avail_eq, hr.rep0.avail_eq, hPeq]
    simp [free_bytes]
    omega

/-- Witness of C9: a request of the whole payload, 4080 bytes, on the fresh heap. -/
theorem C9_no_split_witness :
    Reach [] fresh_heap ∧ HEAP_SIZE ≤ 4096 ∧
    print_heap_state 4096 fresh_heap = some [{ addr := 0, size := 4080, free := true }] ∧
    free_list 4096 fresh_heap = some [0] ∧
    heap_alloc 4096 fresh_heap 4080 =
      some (some (0 + SIZEOF_CHUNK), (alloc_take fresh_heap 4080 none 0).2) ∧
    (fresh_heap.mem 0).size = 4080 ∧ align_up 4080 = 4080 ∧ 4080 - 4080 ≤ SIZEOF_CHUNK ∧
    4080 ≤ 4080 ∧ ∃ P1 P2 F1 F2,
      [{ addr := 0, size := 4080, free := true }] =
        P1 ++ ({ addr := 0, size := 4080, free := true } : row) :: P2 ∧
      [0] = F1 ++ 0 :: F2 ∧
      print_heap_state 4096 (alloc_take fresh_heap 4080 none 0).2 =
        some (P1 ++ { addr := 0, size := 4080, free := false } :: P2) ∧
      (P1 ++ ({ addr := 0, size := 4080, free := false } : row) :: P2).length =
        [({ addr := 0, size := 4080, free := true } : row)].length ∧
      free_list 4096 (alloc_take fresh_heap 4080 none 0).2 = some (F1 ++ F2) ∧
      (alloc_take fresh_heap 4080 none 0).2.avail + (4080 + SIZEOF_CHUNK) = fresh_heap.avail :=
  ⟨fresh_heap_reach, Nat.le_refl _, rfl, rfl, rfl, rfl, rfl, by decide,
    C9_no_split [] fresh_heap _ _ [0] 4080 0 4080 4080 4096 fresh_heap_reach (Nat.le_refl _)
      rfl rfl rfl rfl rfl (by decide)⟩

/-- C10 (coalesce both): in a reachable state whose physical walk shows a free chunk `l`, then
an allocated chunk `b`, then a free chunk `r`, releasing `b` replaces the three by one free
chunk at the offset of `l` whose size is the three sizes plus twice `sizeof(chunk)`; the other
chunks are as before and the free list has one node fewer. -/
theorem C10_coalesce_both (ps : List Nat) (h : heap) (P1 P2 : List row) (l b r : row)
    (F : List Nat) (fuel : Nat) (hreach : Reach ps h) (hfuel : HEAP_SIZE ≤ fuel)
    (hwalk : print_heap_state fuel h = some (P1 ++ l :: b :: r :: P2))
    (hlist : free_list fuel h = some F)
    (hl : l.free = true) (hb : b.free = false) (hr : r.free = true) :
    ∃ h' F', heap_free fuel h (some (b.addr + SIZEOF_CHUNK)) = some (free_status.freed, h') ∧
      print_heap_state fuel h' =
        some (P1 ++ { addr := l.addr, size := l.size + b.size + r.size + 2 * SIZEOF_CHUNK,
                      free := true } :: P2) ∧
      free_list fuel h' = some F' ∧ F'.length + 1 = F.length := by
  obtain ⟨P0, hrep⟩ := hreach.rep
  have hP : P1 ++ l :: b :: r :: P2 = P0 := by
    rw [hrep.rep0.print_eq hfuel] at hwalk
    exact (Option.some.inj hwalk).symm
  subst hP
  have hF : F = free_addrs (P1 ++ l :: b :: r :: P2) := by
    rw [hrep.rep0.free_list_eq hfuel] at hlist
    exact (Option.some.inj hlist).symm
  subst hF
  have hshape : P1 ++ l :: b :: r :: P2 = (P1 ++ [l]) ++ b :: (r :: P2) := by simp
  rw [hshape] at hrep
  obtain ⟨h', hcall, hr'⟩ := heap_free_rep hrep hb hfuel
  have hrows : free_rows (P1 ++ [l]) b (r :: P2) =
      P1 ++ { addr := l.addr, size := l.size + b.size + r.size + 2 * SIZEOF_CHUNK,
              free := true } :: P2 := by
    unfold free_rows
    rw [merge_left_snoc_free P1 l b hl]
    simp only [merge_right, hr, if_true]
    congr 3
    omega
  rw [hrows] at hr'
  refine ⟨h', _, hcall, hr'.rep0.print_eq hfuel, hr'.rep0.free_list_eq hfuel, ?_⟩
  simp only [free_addrs_append, free_addrs_cons, hl, hb, hr, if_true, Bool.false_eq_true,
    if_false, List.length_append, List.length_cons]
  omega

/-- Witness of C10: the driver's state with a hole at `B`, releasing `C`. -/
theorem C10_coalesce_both_witness :
    Reach [656, 136, 16] hole_heap ∧ HEAP_SIZE ≤ 4096 ∧
    print_heap_state 4096 hole_heap =
      some ([{ addr := 0, size := 104, free := false }] ++
        { addr := 120, size := 504, free := true } :: { addr := 640, size := 200, free := false } ::
        { addr := 856, size := 3224, free := true } :: []) ∧
    free_list 4096 hole_heap = some [120, 856] ∧
    ∃ h' F', heap_free 4096 hole_heap (some (640 + SIZEOF_CHUNK)) = some (free_status.freed, h') ∧
      print_heap_state 4096 h' =
        some ([{ addr := 0, size := 104, free := false }] ++
          { addr := 120, size := 504 + 200 + 3224 + 2 * SIZEOF_CHUNK, free := true } :: []) ∧
      free_list 4096 h' = some F' ∧ F'.length + 1 = [120, 856].length :=
  ⟨hole_heap_reach, Nat.le_refl _, rfl, rfl,
    C10_coalesce_both [656, 136, 16] hole_heap [{ addr := 0, size := 104, free := false }] []
      { addr := 120, size := 504, free := true } { addr := 640, size := 200, free := false }
      { addr := 856, size := 3224, free := true } [120, 856] 4096 hole_heap_reach
      (Nat.le_refl _) rfl rfl rfl rfl rfl⟩

/-! ## Rows of a tiled layout do not overlap -/

theorem Tiled_apart {a e : Nat} {P : List row} (ht : Tiled a P e) {c d : row}
    (hc : c ∈ P) (hd : d ∈ P) :
    c = d ∨ c.addr + SIZEOF_CHUNK + c.size ≤ d.addr ∨ d.addr + SIZEOF_CHUNK + d.size ≤ c.addr := by
  induction P generalizing a with
  | nil => cases hc
  | cons x P ih =>
    obtain ⟨h1, h2⟩ := ht
    rcases List.mem_cons.1 hc with rfl | hc' <;> rcases List.mem_cons.1 hd with rfl | hd'
    · exact Or.inl rfl
    · have := (Tiled_mem h2 hd').1
      right; left
      omega
    · have := (Tiled_mem h2 hc').1
      right; right
      omega
    · exact ih h2 hc' hd'

theorem Tiled_addr_inj {a e : Nat} {P : List row} (ht : Tiled a P e) {c d : row}
    (hc : c ∈ P) (hd : d ∈ P) (hcd : c.addr = d.addr) : c = d := by
  rcases Tiled_apart ht hc hd with h | h | h
  · exact h
  · unfold SIZEOF_CHUNK at h; omega
  · unfold SIZEOF_CHUNK at h; omega

theorem total_bytes_eq_sum (P : List row) :
    (P.map (fun c => SIZEOF_CHUNK + c.size)).sum = total_bytes P := by
  induction P with
  | nil => rfl
  | cons c P ih =>
    rw [List.map_cons, List.sum_cons, ih, total_bytes_cons]
    omega

/-- C11 (maximal free regions): in every reachable state no two neighbouring chunks of the
physical walk are both free; in terms of the headers, the chunk that starts right after a node
of the free list, when it starts inside the arena, is not flagged free. -/
theorem C11_maximal_free_regions (ps : List Nat) (h : heap) (fuel : Nat)
    (hreach : Reach ps h) (hfuel : HEAP_SIZE ≤ fuel) :
    ∃ P F, print_heap_state fuel h = some P ∧ free_list fuel h = some F ∧
      NoAdjFree P ∧
      ∀ a ∈ F, a + SIZEOF_CHUNK + (h.mem a).size < HEAP_SIZE →
        (h.mem (a + SIZEOF_CHUNK + (h.mem a).size)).free = false := by
  obtain ⟨P, hr⟩ := hreach.rep
  refine ⟨P, free_addrs P, hr.rep0.print_eq hfuel, hr.rep0.free_list_eq hfuel, hr.noadj, ?_⟩
  intro a ha hin
  obtain ⟨c, hc, hcf, rfl⟩ := mem_free_addrs.1 ha
  obtain ⟨P1, P2, rfl⟩ := List.append_of_mem hc
  have hag := Agree_append.1 hr.rep0.agree
  obtain ⟨⟨hcs, _⟩, hag2⟩ := Agree_cons.1 hag.2
  rw [hcs] at hin ⊢
  obtain ⟨_, ht2⟩ := Tiled_split hr.rep0.tiled
  cases P2 with
  | nil =>
    rw [Tiled_nil] at ht2
    omega
  | cons d P2 =>
    obtain ⟨hda, _⟩ := ht2
    obtain ⟨_, _, _, h4⟩ := noadj_mid.1 hr.noadj
    have hdf : d.free = false := by
      have := h4 d rfl
      simpa [hcf] using this
    rw [← hda, ((Agree_cons.1 hag2).1).2]
    exact hdf

/-- Witness of C11: the driver's state with a hole at `B`. -/
theorem C11_maximal_free_regions_witness :
    Reach [656, 136, 16] hole_heap ∧ HEAP_SIZE ≤ 4096 ∧
    ∃ P F, print_heap_state 4096 hole_heap = some P ∧ free_list 4096 hole_heap = some F ∧
      NoAdjFree P ∧
      ∀ a ∈ F, a + SIZEOF_CHUNK + (hole_heap.mem a).size < HEAP_SIZE →
        (hole_heap.mem (a + SIZEOF_CHUNK + (hole_heap.mem a).size)).free = false :=
  ⟨hole_heap_reach, Nat.le_refl _,
    C11_maximal_free_regions [656, 136, 16] hole_heap 4096 hole_heap_reach (Nat.le_refl _)⟩

/-- C12 (initial state): when both allocations of `heap_init` succeed, whatever the arena
holds, the state returned has one chunk, at offset 0, free, of size `HEAP_SIZE - sizeof(chunk)`
and without successor; `free_list_head` points to it and `avail` is `HEAP_SIZE`.  When one of
the two allocations fails, `heap_init` returns `NULL`. -/
theorem C12_initial_state (raw : Nat → chunk) :
    (∃ h, heap_init true (some raw) = some h ∧
      print_heap_state HEAP_SIZE h =
        some [{ addr := 0, size := HEAP_SIZE - SIZEOF_CHUNK, free := true }] ∧
      (h.mem 0).size = HEAP_SIZE - SIZEOF_CHUNK ∧ (h.mem 0).free = true ∧
      (h.mem 0).next_free = none ∧ h.free_list_head = some 0 ∧
      free_list HEAP_SIZE h = some [0] ∧ h.avail = HEAP_SIZE) ∧
    heap_init true none = none ∧ heap_init false (some raw) = none ∧
    heap_init false none = none :=
  ⟨⟨_, rfl, rfl, rfl, rfl, rfl, rfl, rfl, rfl⟩, rfl, rfl, rfl⟩

/-- C15 (tiling): in every reachable state the walk of `print_heap_state` ends, the chunks it
visits lie back to back from offset 0 to offset `HEAP_SIZE`, and their sizes plus headers add
up to `HEAP_SIZE`. -/
theorem C15_tiling (ps : List Nat) (h : heap) (fuel : Nat)
    (hreach : Reach ps h) (hfuel : HEAP_SIZE ≤ fuel) :
    ∃ P, print_heap_state fuel h = some P ∧ Tiled 0 P HEAP_SIZE ∧
      (∀ c ∈ P, ∀ d ∈ P, c = d ∨ c.addr + SIZEOF_CHUNK + c.size ≤ d.addr ∨
        d.addr + SIZEOF_CHUNK + d.size ≤ c.addr) ∧
      (P.map (fun c => SIZEOF_CHUNK + c.size)).sum = HEAP_SIZE := by
  obtain ⟨P, hr⟩ := hreach.rep
  refine ⟨P, hr.rep0.print_eq hfuel, hr.rep0.tiled, ?_, ?_⟩
  · intro c hc d hd
    exact Tiled_apart hr.rep0.tiled hc hd
  · rw [total_bytes_eq_sum]
    exact hr.rep0.total

/-- Witness of C15: the driver's state with a hole at `B`. -/
theorem C15_tiling_witness :
    Reach [656, 136, 16] hole_heap ∧ HEAP_SIZE ≤ 4096 ∧
    ∃ P, print_heap_state 4096 hole_heap = some P ∧ Tiled 0 P HEAP_SIZE ∧
      (∀ c ∈ P, ∀ d ∈ P, c = d ∨ c.addr + SIZEOF_CHUNK + c.size ≤ d.addr ∨
        d.addr + SIZEOF_CHUNK + d.size ≤ c.addr) ∧
      (P.map (fun c => SIZEOF_CHUNK + c.size)).sum = HEAP_SIZE :=
  ⟨hole_heap_reach, Nat.le_refl _,
    C15_tiling [656, 136, 16] hole_heap 4096 hole_heap_reach (Nat.le_refl _)⟩

/-- C16 (free list and free flags): in every reachable state the free list is the list of the
offsets of the free chunks of the physical walk, in the order of the walk: a visited chunk is
free exactly when its offset is a node, every node is a visited chunk, and no node occurs
twice. -/
theorem C16_free_list_matches_flags (ps : List Nat) (h : heap) (fuel : Nat)
    (hreach : Reach ps h) (hfuel : HEAP_SIZE ≤ fuel) :
    ∃ P F, print_heap_state fuel h = some P ∧ free_list fuel h = some F ∧
      F = (P.filter (fun c => c.free)).map (fun c => c.addr) ∧
      (∀ c ∈ P, c.free = true ↔ c.addr ∈ F) ∧
      (∀ a ∈ F, ∃ c ∈ P, c.addr = a ∧ (h.mem a).free = true) ∧ F.Nodup := by
  obtain ⟨P, hr⟩ := hreach.rep
  refine ⟨P, free_addrs P, hr.rep0.print_eq hfuel, hr.rep0.free_list_eq hfuel, rfl, ?_, ?_,
    Tiled_free_addrs_nodup hr.rep0.tiled⟩
  · intro c hc
    constructor
    · intro hcf
      exact mem_free_addrs.2 ⟨c, hc, hcf, rfl⟩
    · intro hin
      obtain ⟨d, hd, hdf, hda⟩ := mem_free_addrs.1 hin
      rw [← Tiled_addr_inj hr.rep0.tiled hd hc hda]
      exact hdf
  · intro a ha
    obtain ⟨c, hc, hcf, rfl⟩ := mem_free_addrs.1 ha
    refine ⟨c, hc, rfl, ?_⟩
    rw [(hr.rep0.agree c hc).2]
    exact hcf

/-- Witness of C16: the driver's state with a hole at `B`. -/
theorem C16_free_list_matches_flags_witness :
    Reach [656, 136, 16] hole_heap ∧ HEAP_SIZE ≤ 4096 ∧
    ∃ P F, print_heap_state 4096 hole_heap = some P ∧ free_list 4096 hole_heap = some F ∧
      F = (P.filter (fun c => c.free)).map (fun c => c.addr) ∧
      (∀ c ∈ P, c.free = true ↔ c.addr ∈ F) ∧
      (∀ a ∈ F, ∃ c ∈ P, c.addr = a ∧ (hole_heap.mem a).free = true) ∧ F.Nodup :=
  ⟨hole_heap_reach, Nat.le_refl _,
    C16_free_list_matches_flags [656, 136, 16] hole_heap 4096 hole_heap_reach (Nat.le_refl _)⟩

/-- C17 (no overlap): in every reachable state, writing `size p` for the size stored in the
header of an allocated pointer `p`: the payload `[p, p + size p)` lies inside
`[sizeof(chunk), HEAP_SIZE)`, the payloads of two different allocated pointers are disjoint,
and no payload meets the header `[a, a + sizeof(chunk))` of a chunk of the physical walk. -/
theorem C17_no_overlap (ps : List Nat) (h : heap) (fuel : Nat)
    (hreach : Reach ps h) (hfuel : HEAP_SIZE ≤ fuel) :
    ∃ P, print_heap_state fuel h = some P ∧
      (∀ p ∈ alloc_ptrs P,
        SIZEOF_CHUNK ≤ p ∧ p + (h.mem (p - SIZEOF_CHUNK)).size ≤ HEAP_SIZE) ∧
      (∀ p ∈ alloc_ptrs P, ∀ q ∈ alloc_ptrs P, p ≠ q →
        p + (h.mem (p - SIZEOF_CHUNK)).size ≤ q ∨ q + (h.mem (q - SIZEOF_CHUNK)).size ≤ p) ∧
      (∀ p ∈ alloc_ptrs P, ∀ d ∈ P,
        d.addr + SIZEOF_CHUNK ≤ p ∨ p + (h.mem (p - SIZEOF_CHUNK)).size ≤ d.addr) := by
  obtain ⟨P, hr⟩ := hreach.rep
  have ht := hr.rep0.tiled
  have key : ∀ p ∈ alloc_ptrs P, ∃ c ∈ P, c.addr + SIZEOF_CHUNK = p ∧
      (h.mem (p - SIZEOF_CHUNK)).size = c.size := by
    intro p hp
    obtain ⟨c, hc, _, rfl⟩ := mem_alloc_ptrs.1 hp
    refine ⟨c, hc, rfl, ?_⟩
    rw [Nat.add_sub_cancel]
    exact (hr.rep0.agree c hc).1
  refine ⟨P, hr.rep0.print_eq hfuel, ?_, ?_, ?_⟩
  · intro p hp
    obtain ⟨c, hc, rfl, hs⟩ := key p hp
    rw [hs]
    have := Tiled_mem ht hc
    omega
  · intro p hp q hq hne
    obtain ⟨c, hc, rfl, hs⟩ := key p hp
    obtain ⟨d, hd, rfl, hs'⟩ := key q hq
    rw [hs, hs']
    rcases Tiled_apart ht hc hd with rfl | h1 | h1
    · exact absurd rfl hne
    · left; omega
    · right; omega
  · intro p hp d hd
    obtain ⟨c, hc, rfl, hs⟩ := key p hp
    rw [hs]
    rcases Tiled_apart ht hc hd with rfl | h1 | h1
    · left; omega
    · right; omega
    · left; omega

/-- Witness of C17: the driver's state with a hole at `B`. -/
theorem C17_no_overlap_witness :
    Reach [656, 136, 16] hole_heap ∧ HEAP_SIZE ≤ 4096 ∧
    ∃ P, print_heap_state 4096 hole_heap = some P ∧
      (∀ p ∈ alloc_ptrs P,
        SIZEOF_CHUNK ≤ p ∧ p + (hole_heap.mem (p - SIZEOF_CHUNK)).size ≤ HEAP_SIZE) ∧
      (∀ p ∈ alloc_ptrs P, ∀ q ∈ alloc_ptrs P, p ≠ q →
        p + (hole_heap.mem (p - SIZEOF_CHUNK)).size ≤ q ∨
          q + (hole_heap.mem (q - SIZEOF_CHUNK)).size ≤ p) ∧
      (∀ p ∈ alloc_ptrs P, ∀ d ∈ P,
        d.addr + SIZEOF_CHUNK ≤ p ∨ p + (hole_heap.mem (p - SIZEOF_CHUNK)).size ≤ d.addr) :=
  ⟨hole_heap_reach, Nat.le_refl _,
    C17_no_overlap [656, 136, 16] hole_heap 4096 hole_heap_reach (Nat.le_refl _)⟩

/-! ## The driver -/

theorem heap_alloc_at {h : heap} {P1 P2 : List row} {c : row} {n fuel : Nat}
    (hr : Rep h (P1 ++ c :: P2)) (hn : n ≠ 0) (hc : c.free = true)
    (hfit : align_up n ≤ c.size) (hsm : ∀ d ∈ P1, d.free = true → d.size < align_up n)
    (hfuel : HEAP_SIZE ≤ fuel) :
    ∃ h', heap_alloc fuel h n = some (some (c.addr + SIZEOF_CHUNK), h') ∧
      Rep h' (P1 ++ alloc_rows c (align_up n) ++ P2) :=
  ⟨_, heap_alloc_hit hr.rep0 hn hc hfit hsm hfuel, alloc_take_rep hr hc hfit⟩

/-- The run of the driver on a fresh arena: the four pointers, and the layouts of the six
states it prints. -/
theorem main_run (raw : Nat → chunk) :
    ∃ h0 h1 h2 h3 h4 h5,
      main HEAP_SIZE true (some raw) =
        some ([some 16, some 136, some 656, some 16], [h0, h1, h2, h3, h4, h5]) ∧
      Rep h0 [{ addr := 0, size := 4080, free := true }] ∧
      Rep h1 [{ addr := 0, size := 104, free := false },
        { addr := 120, size := 504, free := false }, { addr := 640, size := 200, free := false },
        { addr := 856, size := 3224, free := true }] ∧
      Rep h2 [{ addr := 0, size := 104, free := false },
        { addr := 120, size := 504, free := true }, { addr := 640, size := 200, free := false },
        { addr := 856, size := 3224, free := true }] ∧
      Rep h3 [{ addr := 0, size := 624, free := true },
        { addr := 640, size := 200, free := false }, { addr := 856, size := 3224, free := true }] ∧
      Rep h4 [{ addr := 0, size := 600, free := false }, { addr := 616, size := 8, free := true },
        { addr := 640, size := 200, free := false }, { addr := 856, size := 3224, free := true }] ∧
      Rep h5 [{ addr := 0, size := 4080, free := true }] := by
  obtain ⟨s0, hinit⟩ : ∃ s0, heap_init true (some raw) = some s0 := ⟨_, rfl⟩
  have r0 : Rep s0 [{ addr := 0, size := 4080, free := true }] := heap_init_rep hinit
  obtain ⟨s1, c1, r1⟩ := @heap_alloc_at s0 [] [] { addr := 0, size := 4080, free := true } 100
    HEAP_SIZE r0 (by decide) rfl (by decide) (by decide) (Nat.le_refl _)
  replace r1 : Rep s1 [{ addr := 0, size := 104, free := false },
      { addr := 120, size := 3960, free := true }] := r1
  obtain ⟨s2, c2, r2⟩ := @heap_alloc_at s1 [{ addr := 0, size := 104, free := false }] []
    { addr := 120, size := 3960, free := true } 500 HEAP_SIZE r1 (by decide) rfl (by decide)
    (by decide) (Nat.le_refl _)
  replace r2 : Rep s2 [{ addr := 0, size := 104, free := false },
      { addr := 120, size := 504, free := false }, { addr := 640, size := 3440, free := true }] := r2
  obtain ⟨s3, c3, r3⟩ := @heap_alloc_at s2 [{ addr := 0, size := 104, free := false },
      { addr := 120, size := 504, free := false }] []
    { addr := 640, size := 3440, free := true } 200 HEAP_SIZE r2 (by decide) rfl (by decide)
    (by decide) (Nat.le_refl _)
  replace r3 : Rep s3 [{ addr := 0, size := 104, free := false },
      { addr := 120, size := 504, free := false }, { addr := 640, size := 200, free := false },
      { addr := 856, size := 3224, free := true }] := r3
  obtain ⟨s4, c4, r4⟩ := @heap_free_rep s3 [{ addr := 0, size := 104, free := false }]
    [{ addr := 640, size := 200, free := false }, { addr := 856, size := 3224, free := true }]
    { addr := 120, size := 504, free := false } HEAP_SIZE r3 rfl (Nat.le_refl _)
  replace r4 : Rep s4 [{ addr := 0, size := 104, free := false },
      { addr := 120, size := 504, free := true }, { addr := 640, size := 200, free := false },
      { addr := 856, size := 3224, free := true }] := r4
  obtain ⟨s5, c5, r5⟩ := @heap_free_rep s4 []
    [{ addr := 120, size := 504, free := true }, { addr := 640, size := 200, free := false },
      { addr := 856, size := 3224, free := true }]
    { addr := 0, size := 104, free := false } HEAP_SIZE r4 rfl (Nat.le_refl _)
  replace r5 : Rep s5 [{ addr := 0, size := 624, free := true },
      { addr := 640, size := 200, free := false }, { addr := 856, size := 3224, free := true }] := r5
  obtain ⟨s6, c6, r6⟩ := @heap_alloc_at s5 []
    [{ addr := 640, size := 200, free := false }, { addr := 856, size := 3224, free := true }]
    { addr := 0, size := 624, free := true } 600 HEAP_SIZE r5 (by decide) rfl (by decide)
    (by decide) (Nat.le_refl _)
  replace r6 : Rep s6 [{ addr := 0, size := 600, free := false },
      { addr := 616, size := 8, free := true }, { addr := 640, size := 200, free := false },
      { addr := 856, size := 3224, free := true }] := r6
  obtain ⟨s7, c7, r7⟩ := @heap_free_rep s6 [{ addr := 0, size := 600, free := false },
      { addr := 616, size := 8, free := true }] [{ addr := 856, size := 3224, free := true }]
    { addr := 640, size := 200, free := false } HEAP_SIZE r6 rfl (Nat.le_refl _)
  replace r7 : Rep s7 [{ addr := 0, size := 600, free := false },
      { addr := 616, size := 3464, free := true }] := r7
  obtain ⟨s8, c8, r8⟩ := @heap_free_rep s7 [] [{ addr := 616, size := 3464, free := true }]
    { addr := 0, size := 600, free := false } HEAP_SIZE r7 rfl (Nat.le_refl _)
  replace r8 : Rep s8 [{ addr := 0, size := 4080, free := true }] := r8
  refine ⟨s0, s3, s4, s5, s6, s8, ?_, r0, r3, r4, r5, r6, r8⟩
  simp only [SIZEOF_CHUNK, Nat.reduceAdd] at c1 c2 c3 c4 c5 c6 c7 c8
  simp only [main, hinit, c1, c2, c3, c4, c5, c6, c7, c8, Option.bind_eq_bind,
    Option.some_bind, Option.pure_def]

/-- C13, as stated, fails on the driver's run over `zero_arena`: after the release of `B` and
`A` the walk shows three chunks, none of them free with size `100 + sizeof(chunk) + 500`; the
free chunk at offset 0 has size 624. -/
theorem C13_counterexample :
    ∃ ptrs h0 h1 h2 h3 h4 h5,
      main HEAP_SIZE true (some zero_arena) = some (ptrs, [h0, h1, h2, h3, h4, h5]) ∧
      ∃ P, print_heap_state HEAP_SIZE h3 = some P ∧
        ¬ ∃ c ∈ P, c.free = true ∧ c.size = 100 + SIZEOF_CHUNK + 500 :=
  ⟨_, _, _, _, _, _, _, rfl, _, rfl, by decide⟩

/-- C13, amended: on a fresh arena, whatever it held, after `A(100)`, `B(500)`, `C(200)`, the
release of `B` and the release of `A`, the regions of `A` and `B` form one free chunk at
offset 0 whose size is `104 + sizeof(chunk) + 504`, the two requests rounded up to multiples
of 8; it is followed by `C` and the free tail. -/
theorem C13_driver_step3 (raw : Nat → chunk) :
    ∃ ptrs h0 h1 h2 h3 h4 h5,
      main HEAP_SIZE true (some raw) = some (ptrs, [h0, h1, h2, h3, h4, h5]) ∧
      ptrs.take 3 = [some 16, some 136, some 656] ∧
      align_up 100 = 104 ∧ align_up 500 = 504 ∧
      print_heap_state HEAP_SIZE h2 =
        some [{ addr := 0, size := 104, free := false }, { addr := 120, size := 504, free := true },
          { addr := 640, size := 200, free := false },
          { addr := 856, size := 3224, free := true }] ∧
      print_heap_state HEAP_SIZE h3 =
        some [{ addr := 0, size := 104 + SIZEOF_CHUNK + 504, free := true },
          { addr := 640, size := 200, free := false },
          { addr := 856, size := 3224, free := true }] ∧
      free_list HEAP_SIZE h3 = some [0, 856] := by
  obtain ⟨h0, h1, h2, h3, h4, h5, hm, _, _, r2, r3, _, _⟩ := main_run raw
  exact ⟨_, h0, h1, h2, h3, h4, h5, hm, rfl, rfl, rfl, r2.rep0.print_eq (Nat.le_refl _),
    r3.rep0.print_eq (Nat.le_refl _), r3.rep0.free_list_eq (Nat.le_refl _)⟩

/-- C14 (driver, final state): on a fresh arena, whatever it held, the driver's four
allocations all return a pointer, and after its last release the physical walk is the single
free chunk of size `HEAP_SIZE - sizeof(chunk)`, the free list is that chunk alone, and `avail`
is `HEAP_SIZE`. -/
theorem C14_driver_final (raw : Nat → chunk) :
    ∃ h0 h1 h2 h3 h4 h5,
      main HEAP_SIZE true (some raw) =
        some ([some 16, some 136, some 656, some 16], [h0, h1, h2, h3, h4, h5]) ∧
      print_heap_state HEAP_SIZE h5 =
        some [{ addr := 0, size := HEAP_SIZE - SIZEOF_CHUNK, free := true }] ∧
      free_list HEAP_SIZE h5 = some [0] ∧ h5.avail = HEAP_SIZE := by
  obtain ⟨h0, h1, h2, h3, h4, h5, hm, _, _, _, _, _, r5⟩ := main_run raw
  exact ⟨h0, h1, h2, h3, h4, h5, hm, r5.rep0.print_eq (Nat.le_refl _),
    r5.rep0.free_list_eq (Nat.le_refl _), r5.rep0.avail_eq⟩

/-! ## Allocated rows are left alone -/

theorem mem_free_rows {P1 P2 : List row} {b c : row} (hcf : c.free = false)
    (hc : c ∈ P1 ∨ c ∈ P2) : c ∈ free_rows P1 b P2 := by
  unfold free_rows
  rcases hc with hc | hc
  · refine List.mem_append_left _ ?_
    rcases last_cases P1 with hlast | ⟨Q1, l, rfl, hl⟩
    · rw [merge_left_keep P1 b hlast]
      exact hc
    · rw [merge_left_snoc_free Q1 l b hl]
      rcases List.mem_append.1 hc with h1 | h1
      · exact h1
      · rw [List.mem_singleton.1 h1, hl] at hcf
        cases hcf
  · refine List.mem_append_right _ ?_
    cases P2 with
    | nil => cases hc
    | cons r P2 =>
      by_cases hrf : r.free = true
      · simp only [merge_right, hrf, if_true]
        rcases List.mem_cons.1 hc with h1 | h1
        · rw [h1, hrf] at hcf
          cases hcf
        · exact List.mem_cons_of_mem _ h1
      · have hrf' : r.free = false := by simpa using hrf
        simp only [merge_right, hrf']
        exact List.mem_cons_of_mem _ hc

theorem mem_alloc_rows_layout {P1 P2 : List row} {c d : row} (s : Nat)
    (hd : d ∈ P1 ∨ d ∈ P2) : d ∈ P1 ++ alloc_rows c s ++ P2 := by
  rcases hd with hd | hd
  · exact List.mem_append_left _ (List.mem_append_left _ hd)
  · exact List.mem_append_right _ hd

theorem align_up_mod (n : Nat) : align_up n % SIZEOF_PTR = 0 := by
  unfold align_up
  simp only [SIZEOF_PTR, UINT32_MOD]
  split <;> omega

theorem alloc_rows_aligned {c : row} {s : Nat} (hc : c.size % SIZEOF_PTR = 0)
    (hs : s % SIZEOF_PTR = 0) : ∀ d ∈ alloc_rows c s, d.size % SIZEOF_PTR = 0 := by
  unfold alloc_rows
  simp only [SIZEOF_PTR, SIZEOF_CHUNK] at *
  split
  · intro d hd
    simp only [List.mem_cons, List.mem_singleton, List.not_mem_nil, or_false] at hd
    rcases hd with rfl | rfl
    · exact hs
    · simp only
      omega
  · intro d hd
    rw [List.mem_singleton.1 hd]
    exact hc

theorem free_rows_aligned {P1 P2 : List row} {b : row}
    (h1 : ∀ d ∈ P1, d.size % SIZEOF_PTR = 0) (hb : b.size % SIZEOF_PTR = 0)
    (h2 : ∀ d ∈ P2, d.size % SIZEOF_PTR = 0) :
    ∀ d ∈ free_rows P1 b P2, d.size % SIZEOF_PTR = 0 := by
  have hleft : (∀ d ∈ (merge_left P1 b).1, d.size % SIZEOF_PTR = 0) ∧
      (merge_left P1 b).2.size % SIZEOF_PTR = 0 := by
    rcases last_cases P1 with hlast | ⟨Q1, l, rfl, hl⟩
    · rw [merge_left_keep P1 b hlast]
      exact ⟨h1, hb⟩
    · rw [merge_left_snoc_free Q1 l b hl]
      refine ⟨fun d hd => h1 d (List.mem_append_left _ hd), ?_⟩
      have := h1 l (by simp)
      simp only [SIZEOF_PTR, SIZEOF_CHUNK] at *
      omega
  unfold free_rows
  generalize (merge_left P1 b).1 = Q1 at hleft
  generalize (merge_left P1 b).2 = t at hleft
  obtain ⟨hq, ht⟩ := hleft
  intro d hd
  rcases List.mem_append.1 hd with hd | hd
  · exact hq d hd
  · cases P2 with
    | nil =>
      simp only [merge_right, List.mem_singleton] at hd
      rw [hd]
      exact ht
    | cons r P2 =>
      have hr := h2 r (by simp)
      by_cases hrf : r.free = true
      · simp only [merge_right, hrf, if_true, List.mem_cons] at hd
        rcases hd with rfl | hd
        · simp only [SIZEOF_PTR, SIZEOF_CHUNK] at *
          omega
        · exact h2 d (List.mem_cons_of_mem _ hd)
      · have hrf' : r.free = false := by simpa using hrf
        simp only [merge_right, hrf', Bool.false_eq_true, if_false, List.mem_cons] at hd
        rcases hd with rfl | hd
        · exact ht
        · exact h2 d (List.mem_cons.2 hd)

theorem Tiled_addr_aligned {a e : Nat} {P : List row} (ht : Tiled a P e)
    (ha : a % SIZEOF_PTR = 0) (hs : ∀ d ∈ P, d.size % SIZEOF_PTR = 0) :
    ∀ d ∈ P, d.addr % SIZEOF_PTR = 0 := by
  induction P generalizing a with
  | nil => intro d hd; cases hd
  | cons c P ih =>
    obtain ⟨h1, h2⟩ := ht
    have hc := hs c (by simp)
    intro d hd
    rcases List.mem_cons.1 hd with rfl | hd
    · rw [h1]; exact ha
    · refine ih h2 ?_ (fun x hx => hs x (List.mem_cons_of_mem _ hx)) d hd
      simp only [SIZEOF_PTR, SIZEOF_CHUNK] at *
      omega

/-- In a reachable state the sizes of the layout and the pointers returned so far are
multiples of `sizeof(void*)`. -/
theorem Reach.aligned {ps : List Nat} {h : heap} (hreach : Reach ps h) :
    ∀ P, Rep h P → (∀ d ∈ P, d.size % SIZEOF_PTR = 0) ∧ ∀ p ∈ ps, p % SIZEOF_PTR = 0 := by
  induction hreach with
  | init hi =>
    intro P hr
    rw [hr.rep0.unique (heap_init_rep hi).rep0]
    refine ⟨fun d hd => ?_, fun p hp => by cases hp⟩
    rw [List.mem_singleton.1 hd]
    rfl
  | @alloc ps h h' fuel n res hprev _ hcall ih =>
    intro P hr'
    obtain ⟨P0, hr0⟩ := hprev.rep
    obtain ⟨hsz, hpt⟩ := ih P0 hr0
    rcases heap_alloc_step hr0 hcall with ⟨rfl, rfl, _⟩ |
      ⟨P1, c, P2, rfl, _, _, _, _, rfl, _, hr1⟩
    · rw [hr'.rep0.unique hr0.rep0]
      exact ⟨hsz, by simpa using hpt⟩
    · rw [hr'.rep0.unique hr1.rep0]
      have hcs := hsz c (by simp)
      constructor
      · intro d hd
        rcases List.mem_append.1 hd with hd | hd
        · rcases List.mem_append.1 hd with hd | hd
          · exact hsz d (List.mem_append_left _ hd)
          · exact alloc_rows_aligned hcs (align_up_mod n) d hd
        · exact hsz d (List.mem_append_right _ (List.mem_cons_of_mem _ hd))
      · intro p hp
        simp only [Option.toList, List.singleton_append, List.mem_cons] at hp
        rcases hp with rfl | hp
        · have := Tiled_addr_aligned hr0.rep0.tiled rfl hsz c (by simp)
          simp only [SIZEOF_PTR, SIZEOF_CHUNK] at *
          omega
        · exact hpt p hp
  | @free ps h h' fuel ptr st hprev hptr hcall ih =>
    intro P hr'
    obtain ⟨P0, hr0⟩ := hprev.rep
    obtain ⟨hsz, hpt⟩ := ih P0 hr0
    rcases heap_free_valid hr0 hptr hcall with rfl |
      ⟨P1, b, P2, rfl, _, _, hr1⟩
    · rw [hr'.rep0.unique hr0.rep0]
      exact ⟨hsz, hpt⟩
    · rw [hr'.rep0.unique hr1.rep0]
      refine ⟨?_, hpt⟩
      exact free_rows_aligned (fun d hd => hsz d (List.mem_append_left _ hd))
        (hsz b (by simp))
        (fun d hd => hsz d (List.mem_append_right _ (List.mem_cons_of_mem _ hd)))

/-- C19 (alignment): in every reachable state every chunk of the physical walk has a size and
an offset that are multiples of `sizeof(void*) = 8`, and every pointer `heap_alloc` has
returned so far is a multiple of 8. -/
theorem C19_alignment (ps : List Nat) (h : heap) (fuel : Nat)
    (hreach : Reach ps h) (hfuel : HEAP_SIZE ≤ fuel) :
    ∃ P, print_heap_state fuel h = some P ∧
      (∀ c ∈ P, c.size % SIZEOF_PTR = 0 ∧ c.addr % SIZEOF_PTR = 0) ∧
      ∀ p ∈ ps, p % SIZEOF_PTR = 0 := by
  obtain ⟨P, hr⟩ := hreach.rep
  obtain ⟨hsz, hpt⟩ := hreach.aligned P hr
  refine ⟨P, hr.rep0.print_eq hfuel, fun c hc => ⟨hsz c hc, ?_⟩, hpt⟩
  exact Tiled_addr_aligned hr.rep0.tiled rfl hsz c hc

/-- Witness of C19: the driver's state with a hole at `B`. -/
theorem C19_alignment_witness :
    Reach [656, 136, 16] hole_heap ∧ HEAP_SIZE ≤ 4096 ∧
    ∃ P, print_heap_state 4096 hole_heap = some P ∧
      (∀ c ∈ P, c.size % SIZEOF_PTR = 0 ∧ c.addr % SIZEOF_PTR = 0) ∧
      ∀ p ∈ [656, 136, 16], p % SIZEOF_PTR = 0 :=
  ⟨hole_heap_reach, Nat.le_refl _,
    C19_alignment [656, 136, 16] hole_heap 4096 hole_heap_reach (Nat.le_refl _)⟩

/-! ## Live allocations -/

theorem ReachLive.reach {ps : List Nat} {L : List (Nat × Nat)} {h : heap}
    (hl : ReachLive ps L h) : Reach ps h := by
  induction hl with
  | init hi => exact Reach.init hi
  | alloc_ptr _ hn hcall ih => exact Reach.alloc ih hn hcall
  | alloc_null _ hn hcall ih => exact Reach.alloc ih hn hcall
  | free_null _ hcall ih => exact Reach.free ih (fun p hp => by cases hp) hcall
  | free_ptr _ hp hcall ih =>
    refine Reach.free ih (fun q hq => ?_) hcall
    cases hq
    exact hp

theorem heap_alloc_null {h h' : heap} {n fuel : Nat}
    (hcall : heap_alloc fuel h n = some (none, h')) : h' = h := by
  unfold heap_alloc at hcall
  split at hcall
  · simp only [Option.some.injEq, Prod.mk.injEq, true_and] at hcall
    exact hcall.symm
  · exact alloc_loop_null hcall

/-- In a reachable state every live allocation `(p, n)` has `n ≠ 0` and designates an allocated
row of the layout whose size is at least the rounded `n`. -/
theorem ReachLive.live {ps : List Nat} {L : List (Nat × Nat)} {h : heap}
    (hl : ReachLive ps L h) :
    ∀ P, Rep h P → ∀ e ∈ L, e.2 ≠ 0 ∧
      ∃ c ∈ P, c.free = false ∧ c.addr + SIZEOF_CHUNK = e.1 ∧ align_up e.2 ≤ c.size := by
  induction hl with
  | init hi =>
    intro P _ e he
    cases he
  | @alloc_ptr ps L h h' fuel n p hprev _ hcall ih =>
    intro P hr' e he
    obtain ⟨P0, hr0⟩ := hprev.reach.rep
    rcases heap_alloc_step hr0 hcall with ⟨hn, _, _⟩ |
      ⟨P1, c, P2, rfl, hn0, hc, hfit, _, hres, _, hr1⟩
    · cases hn
    · rw [hr'.rep0.unique hr1.rep0]
      rcases List.mem_cons.1 he with rfl | he
      · refine ⟨hn0, ?_⟩
        have hp : c.addr + SIZEOF_CHUNK = p := (Option.some.inj hres).symm
        by_cases hsp : c.size - align_up n > SIZEOF_CHUNK
        · refine ⟨{ addr := c.addr, size := align_up n, free := false }, ?_, rfl, hp,
            Nat.le_refl _⟩
          simp [alloc_rows, hsp]
        · refine ⟨{ addr := c.addr, size := c.size, free := false }, ?_, rfl, hp, hfit⟩
          simp [alloc_rows, hsp]
      · obtain ⟨hne, d, hd, hdf, hda, hds⟩ := ih _ hr0 e he
        refine ⟨hne, d, mem_alloc_rows_layout _ ?_, hdf, hda, hds⟩
        rcases List.mem_append.1 hd with h1 | h1
        · exact Or.inl h1
        · rcases List.mem_cons.1 h1 with h2 | h2
          · rw [h2, hc] at hdf
            cases hdf
          · exact Or.inr h2
  | @alloc_null ps L h h' fuel n hprev _ hcall ih =>
    intro P hr' e he
    have := heap_alloc_null hcall
    subst this
    exact ih P hr' e he
  | @free_null ps L h h' fuel st hprev hcall ih =>
    intro P hr' e he
    simp only [heap_free, Option.some.injEq, Prod.mk.injEq] at hcall
    rw [← hcall.2] at hr'
    exact ih P hr' e he
  | @free_ptr ps L h h' fuel p st hprev hp hcall ih =>
    intro P hr' e he
    obtain ⟨P0, hr0⟩ := hprev.reach.rep
    obtain ⟨he1, he2⟩ := List.mem_filter.1 he
    have hne : e.1 ≠ p := by simpa using he2
    obtain ⟨hn0, d, hd, hdf, hda, hds⟩ := ih _ hr0 e he1
    rcases heap_free_valid hr0 (fun q hq => by cases hq; exact hp) hcall with rfl |
      ⟨P1, b, P2, rfl, _, hb, hr1⟩
    · rw [hr'.rep0.unique hr0.rep0]
      exact ⟨hn0, d, hd, hdf, hda, hds⟩
    · rw [hr'.rep0.unique hr1.rep0]
      refine ⟨hn0, d, mem_free_rows hdf ?_, hdf, hda, hds⟩
      have hbp : b.addr + SIZEOF_CHUNK = p := (Option.some.inj hb).symm
      rcases List.mem_append.1 hd with h1 | h1
      · exact Or.inl h1
      · rcases List.mem_cons.1 h1 with h2 | h2
        · exfalso
          apply hne
          rw [← hda, h2, hbp]
        · exact Or.inr h2

theorem free_rows_region {a e : Nat} {P1 P2 : List row} {b : row}
    (ht : Tiled a (P1 ++ b :: P2) e) :
    ∃ T ∈ free_rows P1 b P2, T.free = true ∧ b.size ≤ T.size ∧ T.addr ≤ b.addr := by
  have hleft : (merge_left P1 b).2.free = true ∧ b.size ≤ (merge_left P1 b).2.size ∧
      (merge_left P1 b).2.addr ≤ b.addr := by
    rcases last_cases P1 with hlast | ⟨Q1, l, rfl, hl⟩
    · rw [merge_left_keep P1 b hlast]
      exact ⟨rfl, Nat.le_refl _, Nat.le_refl _⟩
    · rw [merge_left_snoc_free Q1 l b hl]
      have := @Tiled_before a e (Q1 ++ [l]) P2 b l ht (by simp)
      refine ⟨rfl, ?_, ?_⟩
      · simp only
        omega
      · simp only
        omega
  unfold free_rows
  generalize (merge_left P1 b).1 = Q1
  generalize (merge_left P1 b).2 = t at hleft
  obtain ⟨htf, hts, hta⟩ := hleft
  cases P2 with
  | nil => exact ⟨t, by simp [merge_right], htf, hts, hta⟩
  | cons r P2 =>
    by_cases hrf : r.free = true
    · refine ⟨{ addr := t.addr, size := t.size + SIZEOF_CHUNK + r.size, free := true }, ?_, rfl,
        ?_, hta⟩
      · simp [merge_right, hrf]
      · simp only
        omega
    · exact ⟨t, by simp [merge_right, hrf], htf, hts, hta⟩

/-- C20 (reuse after free): in a reachable state, when `p` is currently allocated and the call
that returned it was `heap_alloc(n)`, then `heap_free(p)` releases it and a call `heap_alloc(n)`
right after returns a pointer, which is at most `p`. -/
theorem C20_reuse_after_free (ps : List Nat) (L : List (Nat × Nat)) (h : heap) (p n fuel : Nat)
    (hreach : ReachLive ps L h) (hfuel : HEAP_SIZE ≤ fuel) (hlive : (p, n) ∈ L) :
    ∃ h1 q h2, heap_free fuel h (some p) = some (free_status.freed, h1) ∧
      heap_alloc fuel h1 n = some (some q, h2) ∧ q ≤ p := by
  obtain ⟨P, hr⟩ := hreach.reach.rep
  obtain ⟨hn0, b, hb, hbf, hbp, hbs⟩ := hreach.live P hr (p, n) hlive
  simp only at hn0 hbp hbs
  obtain ⟨P1, P2, rfl⟩ := List.append_of_mem hb
  obtain ⟨h1, hfree, hr1⟩ := heap_free_rep hr hbf hfuel
  rw [hbp] at hfree
  obtain ⟨T, hT, hTf, hTs, hTa⟩ := free_rows_region hr.rep0.tiled
  rcases first_fit_cases (free_rows P1 b P2) (align_up n) with hsm | ⟨R1, c, R2, hR, hc, hfit, hsm⟩
  · have := hsm T hT hTf
    omega
  · rw [hR] at hr1 hT
    obtain ⟨h2, halloc, _⟩ := heap_alloc_at hr1 hn0 hc hfit hsm hfuel
    refine ⟨h1, c.addr + SIZEOF_CHUNK, h2, hfree, halloc, ?_⟩
    rcases List.mem_append.1 hT with h3 | h3
    · have := hsm T h3 hTf
      omega
    · rcases List.mem_cons.1 h3 with h4 | h4
      · rw [h4] at hTa
        omega
      · have := Tiled_after hr1.rep0.tiled h4
        omega

/-- Witness of C20: the block returned by `heap_alloc(100)` on the fresh heap. -/
theorem C20_reuse_after_free_witness :
    ReachLive [16] [(16, 100)] one_alloc ∧ HEAP_SIZE ≤ 4096 ∧ (16, 100) ∈ [(16, 100)] ∧
    ∃ h1 q h2, heap_free 4096 one_alloc (some 16) = some (free_status.freed, h1) ∧
      heap_alloc 4096 h1 100 = some (some q, h2) ∧ q ≤ 16 :=
  ⟨@ReachLive.alloc_ptr [] [] fresh_heap one_alloc 4096 100 16
      (ReachLive.init fresh_heap_init) (by decide) one_alloc_call,
    Nat.le_refl _, by simp,
    C20_reuse_after_free [16] [(16, 100)] one_alloc 16 100 4096
      (@ReachLive.alloc_ptr [] [] fresh_heap one_alloc 4096 100 16
        (ReachLive.init fresh_heap_init) (by decide) one_alloc_call)
      (Nat.le_refl _) (by simp)⟩

end MyHeap
